import Mathlib

/-!
Verification of the grid-simulation and pathfinding core of the Snake game
repository.  The definitions below are shallow embeddings of the TypeScript
source:

* `CellType`, `Direction`, `Coord` come from `src/enums/Snake.ts`.
* `SnakeGame.move` and `SnakeGame.placeFood` embed the `move` and `placeFood`
  closures of the single-player component (`src/unnamed/part_001`).  That file
  imports `BOARD_I_LENGTH` and `BOARD_J_LENGTH` from `const/SnakeConsts`, a
  file not present in the repository snapshot, so the two dimensions are
  explicit parameters `R`, `C` here.
* `SnakeTwo.moveSnake` and `SnakeTwo.placeFood` embed the two-player component
  (`src/unnamed/part_002`), whose dimensions are the in-file constants 20x20
  and whose cell enum is its own local one.
* `findShortestWayToFood` embeds the A* planner of
  `src/helper/snakeHelper.ts`.
* `SnakeWithAi.getPathfindingBoard` embeds the snapshot builder of the
  user-vs-AI component (`src/unnamed/part_003`).

JavaScript numbers are used here only for integer grid arithmetic, so they are
modelled by `Int`.
-/

/-- Cell occupancy kinds, from `src/enums/Snake.ts`. -/
inductive CellType where
  | EMPTY
  | SNAKE
  | FOOD
  | AI_SNAKE
  | USER_SNAKE
deriving DecidableEq, Repr

/-- Movement directions, from `src/enums/Snake.ts` (the two-player file
declares an identical local copy). -/
inductive Direction where
  | UP
  | DOWN
  | LEFT
  | RIGHT
deriving DecidableEq, Repr

/-- The `Coord` record `{row, col, type}`; the occupancy enum differs between
the single-player/AI files and the two-player file, so the cell-kind type is a
parameter. -/
structure GCoord (τ : Type) where
  row : Int
  col : Int
  type : τ
deriving DecidableEq, Repr

/-- `Coord` of `src/enums/Snake.ts`. -/
abbrev Coord := GCoord CellType

/-- The (row, col) position of a coordinate record, forgetting the type tag. -/
def GCoord.pos {τ : Type} (c : GCoord τ) : Int × Int := (c.row, c.col)

/-- Positions of a body list, head first. -/
def cellsOf {τ : Type} (body : List (GCoord τ)) : List (Int × Int) :=
  body.map GCoord.pos

/-- The `switch (direction)` block shared by `move` (part_001), `moveSnake`
(part_002) and `moveAiSnake`/`moveUserSnake` (part_003): spread the old head,
overwrite its type tag, then shift one cell in the given direction. -/
def advanceHead {τ : Type} (head : GCoord τ) (t : τ) (d : Direction) : GCoord τ :=
  match d with
  | Direction.UP => { head with type := t, row := head.row - 1 }
  | Direction.DOWN => { head with type := t, row := head.row + 1 }
  | Direction.LEFT => { head with type := t, col := head.col - 1 }
  | Direction.RIGHT => { head with type := t, col := head.col + 1 }

namespace SnakeGame

/-- Board of the single-player component: a row-major matrix of `Coord`. -/
abbrev Board := List (List Coord)

/-- `newBoard[r][c].type = t`.  In the source every painted coordinate is a
live body or food cell, hence in bounds; out-of-range indices are a no-op
here. -/
def paintCell (b : Board) (r c : Int) (t : CellType) : Board :=
  if r < 0 ∨ c < 0 then b
  else b.set r.toNat ((b.getD r.toNat []).set c.toNat
    { (b.getD r.toNat []).getD c.toNat { row := r, col := c, type := t } with type := t })

/-- `board.map(row => row.map(cell => ({...cell, type: EMPTY})))`. -/
def clearBoard (b : Board) : Board :=
  b.map (fun row => row.map (fun cell => { cell with type := CellType.EMPTY }))

/-- Which branch of `move` ran.  The source signals the branches through
`console.log` messages and through which state it leaves unchanged. -/
inductive MoveOutcome where
  | emptyNoOp
  | hitWall
  | hitSelf
  | continued
  | ate
deriving DecidableEq, Repr

/-- The post-`move` state: the values held by the `snake`, `food` and `board`
state cells after the handler returns. -/
structure MoveResult where
  outcome : MoveOutcome
  snake : List Coord
  food : Option Coord
  board : Board
deriving DecidableEq, Repr

/-- The `move` closure of `src/unnamed/part_001` (lines 91-160), with the
component state made explicit.  `R`, `C` stand for `BOARD_I_LENGTH` and
`BOARD_J_LENGTH`. -/
def move (R C : Int) (board : Board) (snake : List Coord) (direction : Direction)
    (food : Option Coord) : MoveResult :=
  match snake with
  | [] => ⟨MoveOutcome.emptyNoOp, snake, food, board⟩
  | head :: _ =>
    let newHead := advanceHead head CellType.SNAKE direction
    if newHead.row < 0 ∨ newHead.row ≥ R ∨ newHead.col < 0 ∨ newHead.col ≥ C then
      ⟨MoveOutcome.hitWall, snake, food, board⟩
    else if snake.any (fun s => s.row == newHead.row && s.col == newHead.col) then
      ⟨MoveOutcome.hitSelf, snake, food, board⟩
    else
      let ateFood := match food with
        | some f => newHead.row == f.row && newHead.col == f.col
        | none => false
      let newSnake := if ateFood then newHead :: snake else newHead :: snake.dropLast
      let newFood := if ateFood then none else food
      let painted := newSnake.foldl
        (fun b seg => paintCell b seg.row seg.col CellType.SNAKE) (clearBoard board)
      let newBoard := match food with
        | some f => if ateFood then painted else paintCell painted f.row f.col CellType.FOOD
        | none => painted
      ⟨if ateFood then MoveOutcome.ate else MoveOutcome.continued, newSnake, newFood, newBoard⟩

/-- The row-major scan of `placeFood` (part_001, lines 58-88) collecting every
cell not occupied by the snake. -/
def emptyCellsOf (R C : Int) (snake : List Coord) : List (Int × Int) :=
  (List.range R.toNat).flatMap (fun i =>
    (List.range C.toNat).filterMap (fun j =>
      if snake.any (fun s => s.row == Int.ofNat i && s.col == Int.ofNat j) then none
      else some (Int.ofNat i, Int.ofNat j)))

/-- The `placeFood` closure of part_001.  The call
`Math.floor(Math.random() * emptyCells.length)` is the only randomness; its
result, an index below `emptyCells.length`, is the explicit parameter `k`. -/
def placeFood (R C : Int) (board : Board) (snake : List Coord) (k : Nat) :
    Option (Coord × Board) :=
  let emptyCells := emptyCellsOf R C snake
  if emptyCells.isEmpty then none
  else (emptyCells.get? k).map (fun rc =>
    (⟨rc.1, rc.2, CellType.FOOD⟩, paintCell (clearBoard board) rc.1 rc.2 CellType.FOOD))

end SnakeGame

namespace SnakeTwo

/-- The local cell enum of `src/unnamed/part_002`. -/
inductive CellType where
  | EMPTY
  | PLAYER_ONE
  | PLAYER_TWO
  | FOOD
deriving DecidableEq, Repr

/-- The local `Coord` of part_002. -/
abbrev Coord := GCoord CellType

/-- `const BOARD_ROWS = 20` of part_002. -/
def BOARD_ROWS : Int := 20

/-- `const BOARD_COLS = 20` of part_002. -/
def BOARD_COLS : Int := 20

/-- `moveSnake` of part_002 (lines 106-153): returns the advanced body, `none`
(`null`) on wall or self collision, and the unchanged body when it is empty.
The `food` component state it closes over is an explicit parameter. -/
def moveSnake (food : Option Coord) (snake : List Coord) (direction : Direction)
    (selfType : CellType) : Option (List Coord) :=
  match snake with
  | [] => some snake
  | head :: _ =>
    let newHead := advanceHead head selfType direction
    if newHead.row < 0 ∨ newHead.row ≥ BOARD_ROWS ∨ newHead.col < 0 ∨ newHead.col ≥ BOARD_COLS then
      none
    else if snake.any (fun seg => seg.row == newHead.row && seg.col == newHead.col) then
      none
    else
      let ateFood := match food with
        | some f => newHead.row == f.row && newHead.col == f.col
        | none => false
      some (if ateFood then newHead :: snake else newHead :: snake.dropLast)

/-- The row-major scan of part_002's `placeFood` collecting every cell
occupied by neither snake. -/
def emptyCellsOf (snakeOne snakeTwo : List Coord) : List (Int × Int) :=
  (List.range BOARD_ROWS.toNat).flatMap (fun r =>
    (List.range BOARD_COLS.toNat).filterMap (fun c =>
      if snakeOne.any (fun seg => seg.row == Int.ofNat r && seg.col == Int.ofNat c) ∨
         snakeTwo.any (fun seg => seg.row == Int.ofNat r && seg.col == Int.ofNat c) then none
      else some (Int.ofNat r, Int.ofNat c)))

/-- `placeFood` of part_002 (lines 73-89); the random index is the explicit
parameter `k`, as in `SnakeGame.placeFood`. -/
def placeFood (snakeOne snakeTwo : List Coord) (k : Nat) : Option Coord :=
  let emptyCells := emptyCellsOf snakeOne snakeTwo
  if emptyCells.isEmpty then none
  else (emptyCells.get? k).map (fun rc => ⟨rc.1, rc.2, CellType.FOOD⟩)

end SnakeTwo

/-- Number of rows of the planner's snapshot: `board.length`. -/
def boardRows (board : List (List Coord)) : Int := board.length

/-- Number of columns of the planner's snapshot: `board[0]?.length || 0`. -/
def boardCols (board : List (List Coord)) : Int := (board.headD []).length

/-- The `board[row][col]` access of the planner.  On a rectangular board
every in-bounds access hits a real cell; the default cell used for a ragged
row is blocked, mirroring that the source would fault there. -/
def cellAt (board : List (List Coord)) (row col : Int) : Coord :=
  (board.getD row.toNat []).getD col.toNat ⟨row, col, CellType.SNAKE⟩

/-- The `isValid` helper of `findShortestWayToFood`: in bounds and passable
(`EMPTY` or `FOOD`). -/
def isValid (board : List (List Coord)) (row col : Int) : Bool :=
  if row < 0 ∨ row ≥ boardRows board ∨ col < 0 ∨ col ≥ boardCols board then false
  else
    let cell := cellAt board row col
    cell.type == CellType.EMPTY || cell.type == CellType.FOOD

/-- The Manhattan-distance heuristic of `findShortestWayToFood`. -/
def heuristic (food : Coord) (row col : Int) : Nat :=
  (row - food.row).natAbs + (col - food.col).natAbs

/-- The A* `Node` record: coordinates, cost from the start `g`, heuristic `h`,
total cost `f`, and the parent link used for path reconstruction. -/
inductive ANode where
  | mk (row col : Int) (g h f : Nat) (parent : Option ANode)

/-- Row of an A* node. -/
def ANode.row : ANode → Int
  | ANode.mk r _ _ _ _ _ => r

/-- Column of an A* node. -/
def ANode.col : ANode → Int
  | ANode.mk _ c _ _ _ _ => c

/-- Cost from the start of an A* node. -/
def ANode.g : ANode → Nat
  | ANode.mk _ _ g _ _ _ => g

/-- Heuristic cost of an A* node. -/
def ANode.h : ANode → Nat
  | ANode.mk _ _ _ h _ _ => h

/-- Total cost of an A* node. -/
def ANode.f : ANode → Nat
  | ANode.mk _ _ _ _ f _ => f

/-- Parent link of an A* node. -/
def ANode.parent : ANode → Option ANode
  | ANode.mk _ _ _ _ _ p => p

/-- The parent chain of a node: the node, its parent, and so on up to the
start node (the one with no parent).  `path` in the source is the reverse of
this list. -/
def ANode.chain : ANode → List ANode
  | ANode.mk r c g h f none => [ANode.mk r c g h f none]
  | ANode.mk r c g h f (some p) => ANode.mk r c g h f (some p) :: p.chain

/-- One entry of the `moves` table pairing a direction with its deltas. -/
structure AMove where
  dir : Direction
  rowDelta : Int
  colDelta : Int

/-- The `moves` table of `findShortestWayToFood`, in source order. -/
def moves : List AMove :=
  [⟨Direction.UP, -1, 0⟩, ⟨Direction.DOWN, 1, 0⟩,
   ⟨Direction.LEFT, 0, -1⟩, ⟨Direction.RIGHT, 0, 1⟩]

/-- Stable insertion of a node into a by-`f` sorted list: entries with a
strictly smaller `f` stay in front, and the node is placed before the first
entry whose `f` is not strictly smaller.  `sortByF` folds from the right, so
the inserted node is earlier in the input than everything already in the
list, and placing it before the equal-`f` entries is exactly stability. -/
def insertByF (n : ANode) : List ANode → List ANode
  | [] => [n]
  | m :: ms => if m.f < n.f then m :: insertByF n ms else n :: m :: ms

/-- `openSet.sort((a, b) => a.f - b.f)`.  `Array.prototype.sort` is required
to be stable (ES2019), and any two stable sorts by the same key agree
elementwise, so this structurally recursive stable insertion sort computes
exactly the source's sort. -/
def sortByF : List ANode → List ANode
  | [] => []
  | x :: xs => insertByF x (sortByF xs)

/-- Replace the first list entry satisfying `p` — the in-place mutation of the
node object returned by `openSet.find`. -/
def replaceFirst {α : Type} (p : α → Bool) (upd : α → α) : List α → List α
  | [] => []
  | n :: ns => if p n then upd n :: ns else n :: replaceFirst p upd ns

/-- One iteration of the `for (const move of moves)` neighbor loop: skip
out-of-bounds/blocked cells and closed coordinates, then either push a fresh
node or relax an existing open node.  The source's closed set holds the
strings `row + "-" + col`, which are in bijection with the integer pairs, so
the closed set is the list of pairs here. -/
def processMove (board : List (List Coord)) (food : Coord) (closed : List (Int × Int))
    (current : ANode) (openSet : List ANode) (m : AMove) : List ANode :=
  let newRow := current.row + m.rowDelta
  let newCol := current.col + m.colDelta
  if ¬ isValid board newRow newCol then openSet
  else if (newRow, newCol) ∈ closed then openSet
  else
    let tentativeG := current.g + 1
    match openSet.find? (fun n => n.row == newRow && n.col == newCol) with
    | none =>
      openSet ++ [ANode.mk newRow newCol tentativeG (heuristic food newRow newCol)
        (tentativeG + heuristic food newRow newCol) (some current)]
    | some _ =>
      replaceFirst (fun n => n.row == newRow && n.col == newCol)
        (fun n =>
          if tentativeG < n.g then
            ANode.mk n.row n.col tentativeG n.h (tentativeG + n.h) (some current)
          else n)
        openSet

/-- The whole neighbor loop of one A* iteration. -/
def expandNeighbors (board : List (List Coord)) (food : Coord) (closed : List (Int × Int))
    (current : ANode) (openSet : List ANode) : List ANode :=
  moves.foldl (processMove board food closed current) openSet

/-- The `while (openSet.length > 0)` loop of `findShortestWayToFood`: sort by
`f`, shift the minimum, close its coordinate, return on reaching the food
(`null` for a path of fewer than 2 nodes, otherwise the direction of
`path[1]` relative to the start; when no comparison fires the source falls
through to the neighbor loop), otherwise expand the neighbors.  The source
loop terminates because each iteration closes a fresh coordinate; `fuel`
makes that termination explicit and is chosen large enough to be unreachable
(`astarLoop_fuel_irrelevant` below would be provable; the claims use a bound
proved sufficient). -/
def astarLoop (board : List (List Coord)) (food : Coord) (start : Coord) :
    Nat → List ANode → List (Int × Int) → Option Direction
  | 0, _, _ => none
  | Nat.succ fuel, openSet, closed =>
    match sortByF openSet with
    | [] => none
    | current :: rest =>
      let closed1 := (current.row, current.col) :: closed
      if current.row = food.row ∧ current.col = food.col then
        let path := current.chain.reverse
        if path.length < 2 then none
        else
          let nextStep := path.getD 1 current
          if nextStep.row < start.row then some Direction.UP
          else if nextStep.row > start.row then some Direction.DOWN
          else if nextStep.col < start.col then some Direction.LEFT
          else if nextStep.col > start.col then some Direction.RIGHT
          else astarLoop board food start fuel
            (expandNeighbors board food closed1 current rest) closed1
      else astarLoop board food start fuel
        (expandNeighbors board food closed1 current rest) closed1

/-- `findShortestWayToFood` of `src/helper/snakeHelper.ts`: `null` for an
empty snake, otherwise run A* from the snake's head.  The fuel
`rows * cols + 2` strictly exceeds the greatest possible number of loop
iterations (one fresh closed coordinate each, all of them the start or
in-bounds), so the embedded loop exits exactly where the source loop does. -/
def findShortestWayToFood (board : List (List Coord)) (snake : List Coord)
    (food : Coord) : Option Direction :=
  match snake with
  | [] => none
  | start :: _ =>
    let startNode := ANode.mk start.row start.col 0
      (heuristic food start.row start.col) (heuristic food start.row start.col) none
    astarLoop board food start ((boardRows board).toNat * (boardCols board).toNat + 2)
      [startNode] []

namespace SnakeWithAi

/-- `getPathfindingBoard` of `src/unnamed/part_003`: the planner snapshot,
marking every cell of either snake as blocked (`SNAKE`) and the food cell as
`FOOD`.  `I`, `J` stand for the `BOARD_I_LENGTH`/`BOARD_J_LENGTH` constants
imported from the missing `const/SnakeConsts` file. -/
def getPathfindingBoard (I J : Int) (snake userSnake : List Coord)
    (food : Option Coord) : List (List Coord) :=
  (List.range I.toNat).map (fun i =>
    (List.range J.toNat).map (fun j =>
      let cellType :=
        if snake.any (fun seg => seg.row == Int.ofNat i && seg.col == Int.ofNat j) ∨
           userSnake.any (fun seg => seg.row == Int.ofNat i && seg.col == Int.ofNat j) then
          CellType.SNAKE
        else CellType.EMPTY
      let cellType1 := match food with
        | some f => if f.row == Int.ofNat i && f.col == Int.ofNat j then CellType.FOOD
          else cellType
        | none => cellType
      ⟨Int.ofNat i, Int.ofNat j, cellType1⟩))

end SnakeWithAi

/-! ### Path theory for the planner's grid

A path is a list of (row, col) positions; each step moves by one of the four
`moves` deltas onto a passable in-bounds cell.  The first position of a path
is unconstrained, matching the algorithm's unconditional admission of the
start node. -/

/-- One grid step of the planner: the target is one of the four neighbors of
the source and `isValid` holds there. -/
def stepRel (board : List (List Coord)) (a b : Int × Int) : Prop :=
  (∃ m ∈ moves, b = (a.1 + m.rowDelta, a.2 + m.colDelta)) ∧ isValid board b.1 b.2 = true

instance (board : List (List Coord)) (a b : Int × Int) : Decidable (stepRel board a b) :=
  inferInstanceAs (Decidable ((∃ m ∈ moves, b = (a.1 + m.rowDelta, a.2 + m.colDelta)) ∧
    isValid board b.1 b.2 = true))

/-- `p` is a passable path from `s` to `t`. -/
def IsPathTo (board : List (List Coord)) (s t : Int × Int) (p : List (Int × Int)) : Prop :=
  p.head? = some s ∧ p.getLast? = some t ∧ List.Chain' (stepRel board) p

instance (board : List (List Coord)) (s t : Int × Int) (p : List (Int × Int)) :
    Decidable (IsPathTo board s t p) :=
  inferInstanceAs (Decidable (p.head? = some s ∧ p.getLast? = some t ∧
    List.Chain' (stepRel board) p))

/-- Some passable path from `s` to `t` exists. -/
def Reach (board : List (List Coord)) (s t : Int × Int) : Prop :=
  ∃ p, IsPathTo board s t p

/-- The set of edge counts of passable paths from `s` to `t`. -/
def pathLens (board : List (List Coord)) (s t : Int × Int) : Set ℕ :=
  {n | ∃ p, IsPathTo board s t p ∧ p.length = n + 1}

/-- The length (in edges) of a shortest passable path from `s` to `t` — the
quantity a reference BFS over the same snapshot computes.  This is the
mathematical specification the planner is compared against, so it is stated
as an infimum rather than as a program. -/
noncomputable def distSP (board : List (List Coord)) (s t : Int × Int) : ℕ :=
  sInf (pathLens board s t)

theorem IsPathTo.one_le_length {board : List (List Coord)} {s t : Int × Int}
    {p : List (Int × Int)} (h : IsPathTo board s t p) : 1 ≤ p.length := by
  rcases p with _ | ⟨a, q⟩
  · simp [IsPathTo] at h
  · simp

theorem reach_pathLens_nonempty {board : List (List Coord)} {s t : Int × Int}
    (h : Reach board s t) : (pathLens board s t).Nonempty := by
  obtain ⟨p, hp⟩ := h
  exact ⟨p.length - 1, p, hp, by have := hp.one_le_length; omega⟩

theorem distSP_spec {board : List (List Coord)} {s t : Int × Int} (h : Reach board s t) :
    ∃ p, IsPathTo board s t p ∧ p.length = distSP board s t + 1 :=
  Nat.sInf_mem (reach_pathLens_nonempty h)

theorem distSP_le {board : List (List Coord)} {s t : Int × Int} {p : List (Int × Int)}
    (hp : IsPathTo board s t p) : distSP board s t + 1 ≤ p.length := by
  have h1 := hp.one_le_length
  have h2 : p.length - 1 ∈ pathLens board s t := ⟨p, hp, by omega⟩
  have h3 := Nat.sInf_le h2
  unfold distSP
  omega

/-- Manhattan distance between two grid positions. -/
def manh (a b : Int × Int) : ℕ := (a.1 - b.1).natAbs + (a.2 - b.2).natAbs

theorem manh_triangle (a b c : Int × Int) : manh a c ≤ manh a b + manh b c := by
  unfold manh
  omega

theorem manh_self (a : Int × Int) : manh a a = 0 := by
  simp [manh]

/-- Relating the source's heuristic to Manhattan distance. -/
theorem heuristic_eq_manh (food : Coord) (r c : Int) :
    heuristic food r c = manh (r, c) (food.row, food.col) := rfl

theorem delta_manh {a b : Int × Int}
    (h : ∃ m ∈ moves, b = (a.1 + m.rowDelta, a.2 + m.colDelta)) : manh a b = 1 := by
  obtain ⟨m, hm, rfl⟩ := h
  simp only [moves, List.mem_cons, List.not_mem_nil, or_false] at hm
  rcases hm with rfl | rfl | rfl | rfl <;> simp [manh]

theorem chain_manh_le {board : List (List Coord)} :
    ∀ (q : List (Int × Int)) (v z : Int × Int),
      List.Chain' (stepRel board) (v :: q) → (v :: q).getLast? = some z →
      manh v z ≤ q.length := by
  intro q
  induction q with
  | nil =>
    intro v z _ hlast
    simp at hlast
    subst hlast
    simp [manh_self]
  | cons w t ih =>
    intro v z hchain hlast
    have hstep : stepRel board v w := (List.chain'_cons.mp hchain).1
    have htail : List.Chain' (stepRel board) (w :: t) := (List.chain'_cons.mp hchain).2
    have hlast2 : (w :: t).getLast? = some z := by
      rw [List.getLast?_cons_cons] at hlast
      exact hlast
    have h1 := delta_manh hstep.1
    have h2 := ih w z htail hlast2
    have h3 := manh_triangle v w z
    simp only [List.length_cons]
    omega

/-- Any walk that starts inside a set of positions and ends outside it crosses
the set's boundary at some consecutive pair. -/
theorem boundary_split (mem : Int × Int → Prop) :
    ∀ (l : List (Int × Int)) (a z : Int × Int), l.head? = some a → mem a →
      l.getLast? = some z → ¬ mem z →
      ∃ p₁ c v q, l = p₁ ++ c :: v :: q ∧ mem c ∧ ¬ mem v := by
  intro l
  induction l with
  | nil => simp
  | cons x t ih =>
    intro a z hh ha hl hz
    simp only [List.head?_cons, Option.some.injEq] at hh
    subst hh
    cases t with
    | nil =>
      simp only [List.getLast?_singleton, Option.some.injEq] at hl
      subst hl
      exact absurd ha hz
    | cons b t2 =>
      by_cases hb : mem b
      · obtain ⟨p₁, c, v, q, heq, hc, hv⟩ :=
          ih b z (by simp) hb (by rw [List.getLast?_cons_cons] at hl; exact hl) hz
        exact ⟨x :: p₁, c, v, q, by rw [heq]; simp, hc, hv⟩
      · exact ⟨[], x, b, t2, by simp, ha, hb⟩

/-- The facts extracted from a boundary split of a path. -/
theorem path_split_facts {board : List (List Coord)} {s z : Int × Int}
    {l p₁ q : List (Int × Int)} {c v : Int × Int}
    (hp : IsPathTo board s z l) (hsplit : l = p₁ ++ c :: v :: q) :
    IsPathTo board s c (p₁ ++ [c]) ∧ stepRel board c v ∧
    List.Chain' (stepRel board) (v :: q) ∧ (v :: q).getLast? = some z ∧
    l.length = p₁.length + 2 + q.length := by
  obtain ⟨hh, hl, hchain⟩ := hp
  have hassoc : l = (p₁ ++ [c]) ++ (v :: q) := by rw [hsplit]; simp
  rw [hassoc] at hchain
  obtain ⟨hc1, hc2, hlink⟩ := List.chain'_append.mp hchain
  have hlastc : (p₁ ++ [c]).getLast? = some c := List.getLast?_concat p₁
  have hstep : stepRel board c v := hlink c (by rw [hlastc]; rfl) v rfl
  have hheadc : (p₁ ++ [c]).head? = some s := by
    cases p₁ with
    | nil =>
      simp only [List.nil_append] at hassoc ⊢
      rw [hassoc] at hh
      simp only [List.head?_cons] at hh ⊢
      exact hh
    | cons x p₂ =>
      rw [hassoc] at hh
      simp only [List.cons_append, List.head?_cons] at hh ⊢
      exact hh
  have hlastz : (v :: q).getLast? = some z := by
    rw [hassoc, List.getLast?_append] at hl
    cases hq : (v :: q).getLast? with
    | none => simp at hq
    | some w => rw [hq] at hl; simp only [Option.or_some] at hl; exact hl
  refine ⟨⟨hheadc, hlastc, hc1⟩, hstep, hc2, hlastz, ?_⟩
  rw [hassoc]
  simp
  omega

/-! ### Well-formed A* nodes -/

/-- Position of an A* node. -/
def ANode.pos (n : ANode) : Int × Int := (n.row, n.col)

/-- Every node the algorithm ever creates satisfies this shape invariant: the
parentless start node carries `g = 0` and its own heuristic; every other node
sits on a passable cell one `moves`-delta away from its parent, with `g` one
more than the parent's and `f = g + h`. -/
def ANode.WF (board : List (List Coord)) (food : Coord) (start : Int × Int) : ANode → Prop
  | ANode.mk r c g h f none =>
      r = start.1 ∧ c = start.2 ∧ g = 0 ∧ h = heuristic food r c ∧ f = h
  | ANode.mk r c g h f (some p) =>
      isValid board r c = true ∧
      (∃ m ∈ moves, (r, c) = (p.row + m.rowDelta, p.col + m.colDelta)) ∧
      g = p.g + 1 ∧ h = heuristic food r c ∧ f = g + h ∧ ANode.WF board food start p

theorem ANode.WF.h_eq {board : List (List Coord)} {food : Coord} {start : Int × Int}
    {n : ANode} (hwf : n.WF board food start) : n.h = heuristic food n.row n.col := by
  rcases n with ⟨r, c, g, h, f, _ | p⟩ <;>
    simp only [ANode.WF] at hwf <;>
    simp [ANode.h, ANode.row, ANode.col] <;> tauto

theorem ANode.WF.f_eq {board : List (List Coord)} {food : Coord} {start : Int × Int}
    {n : ANode} (hwf : n.WF board food start) : n.f = n.g + n.h := by
  rcases n with ⟨r, c, g, h, f, _ | p⟩ <;> simp only [ANode.WF] at hwf
  · obtain ⟨-, -, hg, -, hf⟩ := hwf
    simp only [ANode.f, ANode.g, ANode.h]
    omega
  · obtain ⟨-, -, -, -, hf, -⟩ := hwf
    simpa only [ANode.f, ANode.g, ANode.h] using hf

theorem ANode.WF.pos_scope {board : List (List Coord)} {food : Coord} {start : Int × Int}
    {n : ANode} (hwf : n.WF board food start) :
    n.pos = start ∨ isValid board n.row n.col = true := by
  rcases n with ⟨r, c, g, h, f, _ | p⟩ <;> simp only [ANode.WF] at hwf
  · left
    simp [ANode.pos, ANode.row, ANode.col, hwf.1, hwf.2.1]
  · right
    simpa [ANode.row, ANode.col] using hwf.1

/-- The positions along a node's parent chain, start first — `path` in the
source mapped to coordinates. -/
def chainPos (n : ANode) : List (Int × Int) := n.chain.reverse.map ANode.pos

theorem chain_nonroot (r c : Int) (g h f : Nat) (p : ANode) :
    (ANode.mk r c g h f (some p)).chain = ANode.mk r c g h f (some p) :: p.chain := by
  rfl

/-- A well-formed node's parent chain is a passable path from the start to the
node, of exactly `g` edges. -/
theorem wf_chain_path (board : List (List Coord)) (food : Coord) (start : Int × Int) :
    ∀ (n : ANode), n.WF board food start →
      IsPathTo board start n.pos (chainPos n) ∧ (chainPos n).length = n.g + 1
  | ANode.mk r c g h f none, hwf => by
    simp only [ANode.WF] at hwf
    obtain ⟨hr, hc, hg, -, -⟩ := hwf
    subst hr hc hg
    refine ⟨⟨?_, ?_, ?_⟩, ?_⟩ <;>
      simp [chainPos, ANode.chain, ANode.pos, ANode.g, ANode.row, ANode.col]
  | ANode.mk r c g h f (some p), hwf => by
    simp only [ANode.WF] at hwf
    obtain ⟨hvalid, hdelta, hg, -, -, hwfp⟩ := hwf
    obtain ⟨⟨hhead, hlast, hchain⟩, hlen⟩ := wf_chain_path board food start p hwfp
    have hrw : chainPos (ANode.mk r c g h f (some p)) =
        chainPos p ++ [(r, c)] := by
      simp [chainPos, chain_nonroot, ANode.pos, ANode.row, ANode.col]
    constructor
    · refine ⟨?_, ?_, ?_⟩
    -- head
      · rw [hrw]
        cases hcp : chainPos p with
        | nil => rw [hcp] at hhead; simp at hhead
        | cons x xs => rw [hcp] at hhead; simpa using hhead
      · rw [hrw, List.getLast?_concat]
        rfl
      · rw [hrw]
        refine List.chain'_append.mpr ⟨hchain, List.chain'_singleton _, ?_⟩
        intro a ha b hb
        rw [hlast] at ha
        simp at ha hb
        subst ha hb
        refine ⟨?_, ?_⟩
        · simpa [ANode.pos] using hdelta
        · simpa using hvalid
    · rw [hrw]
      have hgeq : (ANode.mk r c g h f (some p)).g = g := rfl
      simp only [List.length_append, List.length_singleton, hgeq]
      omega

/-- Shorthand: a well-formed node's position is reachable. -/
theorem ANode.WF.reach {board : List (List Coord)} {food : Coord} {start : Int × Int}
    {n : ANode} (hwf : n.WF board food start) : Reach board start n.pos :=
  ⟨chainPos n, (wf_chain_path board food start n hwf).1⟩

/-- Shorthand: a well-formed node's `g` is at least the shortest-path length. -/
theorem ANode.WF.dist_le_g {board : List (List Coord)} {food : Coord} {start : Int × Int}
    {n : ANode} (hwf : n.WF board food start) : distSP board start n.pos ≤ n.g := by
  obtain ⟨hpath, hlen⟩ := wf_chain_path board food start n hwf
  have := distSP_le hpath
  omega

/-- For a non-start node, the second entry of the reconstructed `path` is a
passable cell one delta away from the start. -/
theorem wf_chain_second (board : List (List Coord)) (food : Coord) (start : Int × Int) :
    ∀ (n : ANode), n.WF board food start → 1 ≤ n.g →
      ∃ c1 m, m ∈ moves ∧ n.chain.reverse.get? 1 = some c1 ∧
        c1.pos = (start.1 + m.rowDelta, start.2 + m.colDelta) ∧
        isValid board c1.row c1.col = true ∧
        (chainPos n).get? 1 = some c1.pos
  | ANode.mk r c g h f none, hwf, hg => by
    simp only [ANode.WF] at hwf
    simp only [ANode.g] at hg
    omega
  | ANode.mk r c g h f (some p), hwf, _ => by
    simp only [ANode.WF] at hwf
    obtain ⟨hvalid, hdelta, hg, -, -, hwfp⟩ := hwf
    have hrev : (ANode.mk r c g h f (some p)).chain.reverse =
        p.chain.reverse ++ [ANode.mk r c g h f (some p)] := by
      rw [chain_nonroot]
      simp
    rcases p with ⟨pr, pc, pg, ph, pf, _ | gp⟩
    · -- the parent is the start node: the node itself is the second entry
      have hchain : (ANode.mk pr pc pg ph pf none).chain.reverse =
          [ANode.mk pr pc pg ph pf none] := by rfl
      simp only [ANode.WF] at hwfp
      obtain ⟨hpr, hpc, -, -, -⟩ := hwfp
      refine ⟨ANode.mk r c g h f (some (ANode.mk pr pc pg ph pf none)), ?_⟩
      obtain ⟨m, hm, hmeq⟩ := hdelta
      refine ⟨m, hm, ?_, ?_, ?_, ?_⟩
      · rw [hrev, hchain]
        rfl
      · simp only [ANode.pos, ANode.row, ANode.col]
        simp only [ANode.row, ANode.col] at hmeq
        rw [hmeq, hpr, hpc]
      · simpa [ANode.row, ANode.col] using hvalid
      · rw [chainPos, hrev, hchain]
        rfl
    · -- the parent is itself a non-start node: recurse
      have hp1 : 1 ≤ (ANode.mk pr pc pg ph pf (some gp)).g := by
        simp only [ANode.WF] at hwfp
        simp only [ANode.g]
        omega
      obtain ⟨c1, m, hm, hget, hpos, hval, hcpos⟩ :=
        wf_chain_second board food start (ANode.mk pr pc pg ph pf (some gp)) hwfp hp1
      have hplen : (ANode.mk pr pc pg ph pf (some gp)).chain.reverse.length =
          (ANode.mk pr pc pg ph pf (some gp)).g + 1 := by
        have := (wf_chain_path board food start _ hwfp).2
        simpa [chainPos] using this
      simp only [ANode.g] at hplen hp1
      refine ⟨c1, m, hm, ?_, hpos, hval, ?_⟩
      · rw [hrev, List.get?_append]
        · exact hget
        · omega
      · rw [chainPos, hrev]
        rw [List.map_append, List.get?_append]
        · simpa [chainPos] using hcpos
        · simp only [List.length_map]
          omega

/-! ### Properties of the open-set operations -/

theorem insertByF_perm (n : ANode) : ∀ l : List ANode, (insertByF n l).Perm (n :: l)
  | [] => List.Perm.refl _
  | m :: ms => by
    unfold insertByF
    by_cases h : m.f < n.f
    · rw [if_pos h]
      exact ((insertByF_perm n ms).cons m).trans (List.Perm.swap n m ms)
    · rw [if_neg h]

theorem sortByF_perm : ∀ l : List ANode, (sortByF l).Perm l
  | [] => List.Perm.refl _
  | x :: xs => (insertByF_perm x (sortByF xs)).trans ((sortByF_perm xs).cons x)

theorem insertByF_sorted (n : ANode) {l : List ANode}
    (hl : List.Pairwise (fun a b : ANode => a.f ≤ b.f) l) :
    List.Pairwise (fun a b : ANode => a.f ≤ b.f) (insertByF n l) := by
  induction l with
  | nil => simp [insertByF]
  | cons m ms ih =>
    rw [List.pairwise_cons] at hl
    unfold insertByF
    by_cases h : m.f < n.f
    · rw [if_pos h]
      rw [List.pairwise_cons]
      constructor
      · intro b hb
        rcases List.mem_cons.mp ((insertByF_perm n ms).subset hb) with rfl | hb2
        · exact le_of_lt h
        · exact hl.1 b hb2
      · exact ih hl.2
    · rw [if_neg h]
      push_neg at h
      rw [List.pairwise_cons]
      refine ⟨?_, List.pairwise_cons.mpr hl⟩
      intro b hb
      rcases List.mem_cons.mp hb with rfl | hb2
      · exact h
      · exact le_trans h (hl.1 b hb2)

theorem sortByF_sorted : ∀ l : List ANode,
    List.Pairwise (fun a b : ANode => a.f ≤ b.f) (sortByF l)
  | [] => List.Pairwise.nil
  | x :: xs => insertByF_sorted x (sortByF_sorted xs)

theorem sortByF_head_min {l rest : List ANode} {n : ANode}
    (h : sortByF l = n :: rest) : ∀ m ∈ l, n.f ≤ m.f := by
  intro m hm
  have hmem : m ∈ n :: rest := by
    rw [← h]
    exact (sortByF_perm l).symm.subset hm
  have hp := sortByF_sorted l
  rw [h, List.pairwise_cons] at hp
  rcases List.mem_cons.mp hmem with rfl | hmem2
  · exact le_refl _
  · exact hp.1 m hmem2

theorem replaceFirst_map_eq {α β : Type} (p : α → Bool) (upd : α → α) (proj : α → β)
    (hproj : ∀ x, p x = true → proj (upd x) = proj x) :
    ∀ l : List α, (replaceFirst p upd l).map proj = l.map proj := by
  intro l
  induction l with
  | nil => rfl
  | cons a t ih =>
    by_cases hp : p a = true
    · simp [replaceFirst, hp, hproj a hp]
    · simp [replaceFirst, hp, ih]

theorem mem_replaceFirst {α : Type} {p : α → Bool} {upd : α → α} :
    ∀ {l : List α} {y : α}, y ∈ replaceFirst p upd l →
      y ∈ l ∨ ∃ x ∈ l, p x = true ∧ y = upd x := by
  intro l
  induction l with
  | nil => intro y hy; simp [replaceFirst] at hy
  | cons a t ih =>
    intro y hy
    by_cases hp : p a = true
    · simp only [replaceFirst, if_pos hp] at hy
      rcases List.mem_cons.mp hy with rfl | hy
      · exact Or.inr ⟨a, by simp, hp, rfl⟩
      · exact Or.inl (List.mem_cons_of_mem _ hy)
    · simp only [replaceFirst, hp, if_neg, Bool.not_eq_true] at hy
      rcases List.mem_cons.mp hy with rfl | hy
      · exact Or.inl (List.mem_cons_self _ _)
      · rcases ih hy with hy2 | ⟨x, hx, hpx, rfl⟩
        · exact Or.inl (List.mem_cons_of_mem _ hy2)
        · exact Or.inr ⟨x, List.mem_cons_of_mem _ hx, hpx, rfl⟩

theorem replaceFirst_covers {α : Type} {p : α → Bool} {upd : α → α} :
    ∀ {l : List α} {x : α}, x ∈ l →
      ∃ y ∈ replaceFirst p upd l, y = x ∨ (p x = true ∧ y = upd x) := by
  intro l
  induction l with
  | nil => intro x hx; simp at hx
  | cons a t ih =>
    intro x hx
    by_cases hp : p a = true
    · rcases List.mem_cons.mp hx with rfl | hx
      · exact ⟨upd x, by simp [replaceFirst, hp], Or.inr ⟨hp, rfl⟩⟩
      · exact ⟨x, by simp [replaceFirst, hp, hx], Or.inl rfl⟩
    · rcases List.mem_cons.mp hx with rfl | hx
      · exact ⟨x, by simp [replaceFirst, hp], Or.inl rfl⟩
      · obtain ⟨y, hy, hyx⟩ := ih hx
        exact ⟨y, by simp [replaceFirst, hp, hy], hyx⟩

theorem replaceFirst_exists {α : Type} {p : α → Bool} {upd : α → α} :
    ∀ {l : List α}, (∃ x ∈ l, p x = true) →
      ∃ x ∈ l, p x = true ∧ upd x ∈ replaceFirst p upd l := by
  intro l
  induction l with
  | nil => intro h; simp at h
  | cons a t ih =>
    intro h
    by_cases hp : p a = true
    · exact ⟨a, by simp, hp, by simp [replaceFirst, hp]⟩
    · obtain ⟨x, hx, hpx⟩ := h
      rcases List.mem_cons.mp hx with rfl | hx
      · exact absurd hpx hp
      · obtain ⟨x2, hx2, hpx2, hu⟩ := ih ⟨x, hx, hpx⟩
        exact ⟨x2, List.mem_cons_of_mem _ hx2, hpx2, by simp [replaceFirst, hp, hu]⟩

/-! ### Behavior of one neighbor-processing step -/

/-- The cell one `moves`-delta away from a position. -/
def moveTarget (q : Int × Int) (m : AMove) : Int × Int := (q.1 + m.rowDelta, q.2 + m.colDelta)

theorem processMove_of_invalid {board : List (List Coord)} {food : Coord}
    {closed : List (Int × Int)} {cur : ANode} {o : List ANode} {m : AMove}
    (hv : ¬ isValid board (cur.row + m.rowDelta) (cur.col + m.colDelta) = true) :
    processMove board food closed cur o m = o := by
  simp [processMove, hv]

theorem processMove_of_closed {board : List (List Coord)} {food : Coord}
    {closed : List (Int × Int)} {cur : ANode} {o : List ANode} {m : AMove}
    (hv : isValid board (cur.row + m.rowDelta) (cur.col + m.colDelta) = true)
    (hc : (cur.row + m.rowDelta, cur.col + m.colDelta) ∈ closed) :
    processMove board food closed cur o m = o := by
  simp [processMove, hv, hc]

theorem processMove_of_new {board : List (List Coord)} {food : Coord}
    {closed : List (Int × Int)} {cur : ANode} {o : List ANode} {m : AMove}
    (hv : isValid board (cur.row + m.rowDelta) (cur.col + m.colDelta) = true)
    (hc : (cur.row + m.rowDelta, cur.col + m.colDelta) ∉ closed)
    (hfind : o.find? (fun n =>
      n.row == cur.row + m.rowDelta && n.col == cur.col + m.colDelta) = none) :
    processMove board food closed cur o m =
      o ++ [ANode.mk (cur.row + m.rowDelta) (cur.col + m.colDelta) (cur.g + 1)
        (heuristic food (cur.row + m.rowDelta) (cur.col + m.colDelta))
        (cur.g + 1 + heuristic food (cur.row + m.rowDelta) (cur.col + m.colDelta))
        (some cur)] := by
  simp [processMove, hv, hc, hfind]

theorem processMove_of_found {board : List (List Coord)} {food : Coord}
    {closed : List (Int × Int)} {cur : ANode} {o : List ANode} {m : AMove} {x : ANode}
    (hv : isValid board (cur.row + m.rowDelta) (cur.col + m.colDelta) = true)
    (hc : (cur.row + m.rowDelta, cur.col + m.colDelta) ∉ closed)
    (hfind : o.find? (fun n =>
      n.row == cur.row + m.rowDelta && n.col == cur.col + m.colDelta) = some x) :
    processMove board food closed cur o m =
      replaceFirst (fun n => n.row == cur.row + m.rowDelta && n.col == cur.col + m.colDelta)
        (fun n =>
          if cur.g + 1 < n.g then
            ANode.mk n.row n.col (cur.g + 1) n.h (cur.g + 1 + n.h) (some cur)
          else n) o := by
  simp [processMove, hv, hc, hfind]

theorem processMove_mono {board : List (List Coord)} {food : Coord}
    {closed : List (Int × Int)} {cur : ANode} {o : List ANode} {m : AMove} :
    ∀ x ∈ o, ∃ y ∈ processMove board food closed cur o m, y.pos = x.pos ∧ y.g ≤ x.g := by
  intro x hx
  by_cases hv : isValid board (cur.row + m.rowDelta) (cur.col + m.colDelta) = true
  · by_cases hc : (cur.row + m.rowDelta, cur.col + m.colDelta) ∈ closed
    · rw [processMove_of_closed hv hc]
      exact ⟨x, hx, rfl, le_refl _⟩
    · cases hfind : o.find? (fun n =>
        n.row == cur.row + m.rowDelta && n.col == cur.col + m.colDelta) with
      | none =>
        rw [processMove_of_new hv hc hfind]
        exact ⟨x, List.mem_append_left _ hx, rfl, le_refl _⟩
      | some x0 =>
        rw [processMove_of_found hv hc hfind]
        obtain ⟨y, hy, hyx⟩ := replaceFirst_covers hx
        refine ⟨y, hy, ?_⟩
        rcases hyx with rfl | ⟨hpx, rfl⟩
        · exact ⟨rfl, le_refl _⟩
        · by_cases hlt : cur.g + 1 < x.g
          · rw [if_pos hlt]
            refine ⟨rfl, ?_⟩
            show cur.g + 1 ≤ x.g
            omega
          · rw [if_neg hlt]
            exact ⟨rfl, le_refl _⟩
  · rw [processMove_of_invalid hv]
    exact ⟨x, hx, rfl, le_refl _⟩

theorem processMove_wf {board : List (List Coord)} {food : Coord} {start : Int × Int}
    {closed : List (Int × Int)} {cur : ANode} {o : List ANode} {m : AMove}
    (hm : m ∈ moves) (hwfc : cur.WF board food start)
    (hall : ∀ x ∈ o, x.WF board food start) :
    ∀ y ∈ processMove board food closed cur o m, y.WF board food start := by
  intro y hy
  by_cases hv : isValid board (cur.row + m.rowDelta) (cur.col + m.colDelta) = true
  · by_cases hc : (cur.row + m.rowDelta, cur.col + m.colDelta) ∈ closed
    · rw [processMove_of_closed hv hc] at hy
      exact hall y hy
    · cases hfind : o.find? (fun n =>
        n.row == cur.row + m.rowDelta && n.col == cur.col + m.colDelta) with
      | none =>
        rw [processMove_of_new hv hc hfind] at hy
        rcases List.mem_append.mp hy with hy | hy
        · exact hall y hy
        · simp only [List.mem_singleton] at hy
          subst hy
          exact ⟨hv, ⟨m, hm, rfl⟩, rfl, rfl, rfl, hwfc⟩
      | some x0 =>
        rw [processMove_of_found hv hc hfind] at hy
        rcases mem_replaceFirst hy with hy | ⟨x, hx, hpx, rfl⟩
        · exact hall y hy
        · have hwfx := hall x hx
          simp only [Bool.and_eq_true, beq_iff_eq] at hpx
          by_cases hlt : cur.g + 1 < x.g
          · simp only [if_pos hlt]
            refine ⟨?_, ?_, rfl, ?_, rfl, hwfc⟩
            · rw [hpx.1, hpx.2]
              exact hv
            · exact ⟨m, hm, by rw [hpx.1, hpx.2]⟩
            · have := hwfx.h_eq
              rw [this, hpx.1, hpx.2]
          · simp only [if_neg hlt]
            exact hwfx
  · rw [processMove_of_invalid hv] at hy
    exact hall y hy

theorem processMove_nodup {board : List (List Coord)} {food : Coord}
    {closed : List (Int × Int)} {cur : ANode} {o : List ANode} {m : AMove}
    (h2 : (o.map ANode.pos).Nodup) :
    ((processMove board food closed cur o m).map ANode.pos).Nodup := by
  by_cases hv : isValid board (cur.row + m.rowDelta) (cur.col + m.colDelta) = true
  · by_cases hc : (cur.row + m.rowDelta, cur.col + m.colDelta) ∈ closed
    · rw [processMove_of_closed hv hc]; exact h2
    · cases hfind : o.find? (fun n =>
        n.row == cur.row + m.rowDelta && n.col == cur.col + m.colDelta) with
      | none =>
        rw [processMove_of_new hv hc hfind, List.map_append]
        rw [List.nodup_append]
        refine ⟨h2, List.nodup_singleton _, ?_⟩
        intro a ha hb
        simp only [List.map_singleton, List.mem_singleton] at hb
        subst hb
        obtain ⟨x, hx, hpos⟩ := List.mem_map.mp ha
        have := List.find?_eq_none.mp hfind x hx
        simp only [Bool.and_eq_true, beq_iff_eq, not_and] at this
        simp only [ANode.pos] at hpos
        have h1 : x.row = cur.row + m.rowDelta := congrArg Prod.fst hpos
        have hcol : x.col = cur.col + m.colDelta := congrArg Prod.snd hpos
        exact this h1 hcol
      | some x0 =>
        rw [processMove_of_found hv hc hfind]
        rw [replaceFirst_map_eq _ _ _ ?_]
        · exact h2
        · intro x hpx
          by_cases hlt : cur.g + 1 < x.g
          · simp only [if_pos hlt, ANode.pos, ANode.row, ANode.col]
          · simp only [if_neg hlt]
  · rw [processMove_of_invalid hv]; exact h2

theorem processMove_notclosed {board : List (List Coord)} {food : Coord}
    {closed : List (Int × Int)} {cur : ANode} {o : List ANode} {m : AMove}
    (h3 : ∀ x ∈ o, x.pos ∉ closed) :
    ∀ y ∈ processMove board food closed cur o m, y.pos ∉ closed := by
  intro y hy
  by_cases hv : isValid board (cur.row + m.rowDelta) (cur.col + m.colDelta) = true
  · by_cases hc : (cur.row + m.rowDelta, cur.col + m.colDelta) ∈ closed
    · rw [processMove_of_closed hv hc] at hy
      exact h3 y hy
    · cases hfind : o.find? (fun n =>
        n.row == cur.row + m.rowDelta && n.col == cur.col + m.colDelta) with
      | none =>
        rw [processMove_of_new hv hc hfind] at hy
        rcases List.mem_append.mp hy with hy | hy
        · exact h3 y hy
        · simp only [List.mem_singleton] at hy
          subst hy
          simpa [ANode.pos, ANode.row, ANode.col] using hc
      | some x0 =>
        rw [processMove_of_found hv hc hfind] at hy
        rcases mem_replaceFirst hy with hy | ⟨x, hx, hpx, rfl⟩
        · exact h3 y hy
        · by_cases hlt : cur.g + 1 < x.g
          · rw [if_pos hlt]
            simp only [Bool.and_eq_true, beq_iff_eq] at hpx
            show (x.row, x.col) ∉ closed
            rw [hpx.1, hpx.2]
            exact hc
          · rw [if_neg hlt]
            exact h3 x hx
  · rw [processMove_of_invalid hv] at hy
    exact h3 y hy

theorem processMove_covers {board : List (List Coord)} {food : Coord}
    {closed : List (Int × Int)} {cur : ANode} {o : List ANode} {m : AMove}
    (hv : isValid board (cur.row + m.rowDelta) (cur.col + m.colDelta) = true)
    (hc : (cur.row + m.rowDelta, cur.col + m.colDelta) ∉ closed) :
    ∃ y ∈ processMove board food closed cur o m,
      y.pos = (cur.row + m.rowDelta, cur.col + m.colDelta) ∧ y.g ≤ cur.g + 1 := by
  cases hfind : o.find? (fun n =>
      n.row == cur.row + m.rowDelta && n.col == cur.col + m.colDelta) with
  | none =>
    rw [processMove_of_new hv hc hfind]
    refine ⟨_, List.mem_append_right _ (List.mem_singleton_self _), rfl, le_refl _⟩
  | some x0 =>
    rw [processMove_of_found hv hc hfind]
    have hp0 := List.find?_some hfind
    have hex : ∃ x ∈ o, (fun n : ANode =>
        n.row == cur.row + m.rowDelta && n.col == cur.col + m.colDelta) x = true :=
      ⟨x0, List.mem_of_find?_eq_some hfind, hp0⟩
    obtain ⟨x, hx, hpx, hu⟩ := replaceFirst_exists hex
    simp only [Bool.and_eq_true, beq_iff_eq] at hpx
    refine ⟨_, hu, ?_, ?_⟩
    · by_cases hlt : cur.g + 1 < x.g
      · rw [if_pos hlt]
        show (x.row, x.col) = (cur.row + m.rowDelta, cur.col + m.colDelta)
        rw [hpx.1, hpx.2]
      · rw [if_neg hlt]
        show (x.row, x.col) = (cur.row + m.rowDelta, cur.col + m.colDelta)
        rw [hpx.1, hpx.2]
    · by_cases hlt : cur.g + 1 < x.g
      · rw [if_pos hlt]
        show cur.g + 1 ≤ cur.g + 1
        exact le_refl _
      · rw [if_neg hlt]
        omega

/-! ### Behavior of the whole neighbor loop -/

theorem foldl_processMove_mono {board : List (List Coord)} {food : Coord}
    {closed : List (Int × Int)} {cur : ANode} :
    ∀ (ms : List AMove) (o : List ANode), ∀ x ∈ o,
      ∃ y ∈ ms.foldl (processMove board food closed cur) o, y.pos = x.pos ∧ y.g ≤ x.g := by
  intro ms
  induction ms with
  | nil => intro o x hx; exact ⟨x, hx, rfl, le_refl _⟩
  | cons m tail ih =>
    intro o x hx
    obtain ⟨y1, hy1, hpos1, hg1⟩ := processMove_mono x hx
    obtain ⟨y2, hy2, hpos2, hg2⟩ := ih (processMove board food closed cur o m) y1 hy1
    exact ⟨y2, hy2, hpos2.trans hpos1, hg2.trans hg1⟩

theorem foldl_processMove_wf {board : List (List Coord)} {food : Coord} {start : Int × Int}
    {closed : List (Int × Int)} {cur : ANode} (hwfc : cur.WF board food start) :
    ∀ (ms : List AMove), (∀ m ∈ ms, m ∈ moves) → ∀ (o : List ANode),
      (∀ x ∈ o, x.WF board food start) →
      ∀ y ∈ ms.foldl (processMove board food closed cur) o, y.WF board food start := by
  intro ms
  induction ms with
  | nil => intro _ o hall y hy; exact hall y hy
  | cons m tail ih =>
    intro hms o hall y hy
    exact ih (fun m2 hm2 => hms m2 (List.mem_cons_of_mem _ hm2)) _
      (processMove_wf (hms m (List.mem_cons_self _ _)) hwfc hall) y hy

theorem foldl_processMove_nodup {board : List (List Coord)} {food : Coord}
    {closed : List (Int × Int)} {cur : ANode} :
    ∀ (ms : List AMove) (o : List ANode), (o.map ANode.pos).Nodup →
      ((ms.foldl (processMove board food closed cur) o).map ANode.pos).Nodup := by
  intro ms
  induction ms with
  | nil => intro o h2; exact h2
  | cons m tail ih => intro o h2; exact ih _ (processMove_nodup h2)

theorem foldl_processMove_notclosed {board : List (List Coord)} {food : Coord}
    {closed : List (Int × Int)} {cur : ANode} :
    ∀ (ms : List AMove) (o : List ANode), (∀ x ∈ o, x.pos ∉ closed) →
      ∀ y ∈ ms.foldl (processMove board food closed cur) o, y.pos ∉ closed := by
  intro ms
  induction ms with
  | nil => intro o h3 y hy; exact h3 y hy
  | cons m tail ih => intro o h3 y hy; exact ih _ (processMove_notclosed h3) y hy

theorem foldl_processMove_covers {board : List (List Coord)} {food : Coord}
    {closed : List (Int × Int)} {cur : ANode} :
    ∀ (ms : List AMove) (o : List ANode), ∀ m ∈ ms,
      isValid board (cur.row + m.rowDelta) (cur.col + m.colDelta) = true →
      (cur.row + m.rowDelta, cur.col + m.colDelta) ∉ closed →
      ∃ y ∈ ms.foldl (processMove board food closed cur) o,
        y.pos = (cur.row + m.rowDelta, cur.col + m.colDelta) ∧ y.g ≤ cur.g + 1 := by
  intro ms
  induction ms with
  | nil => intro o m hm; simp at hm
  | cons m0 tail ih =>
    intro o m hm hv hc
    rcases List.mem_cons.mp hm with rfl | hm2
    · obtain ⟨y1, hy1, hpos1, hg1⟩ := processMove_covers hv hc
      obtain ⟨y2, hy2, hpos2, hg2⟩ :=
        foldl_processMove_mono tail (processMove board food closed cur o m) y1 hy1
      exact ⟨y2, hy2, hpos2.trans hpos1, hg2.trans hg1⟩
    · exact ih _ m hm2 hv hc

theorem expandNeighbors_mono {board : List (List Coord)} {food : Coord}
    {closed : List (Int × Int)} {cur : ANode} {o : List ANode} :
    ∀ x ∈ o, ∃ y ∈ expandNeighbors board food closed cur o,
      y.pos = x.pos ∧ y.g ≤ x.g :=
  foldl_processMove_mono moves o

theorem expandNeighbors_wf {board : List (List Coord)} {food : Coord} {start : Int × Int}
    {closed : List (Int × Int)} {cur : ANode} {o : List ANode}
    (hwfc : cur.WF board food start) (hall : ∀ x ∈ o, x.WF board food start) :
    ∀ y ∈ expandNeighbors board food closed cur o, y.WF board food start :=
  foldl_processMove_wf hwfc moves (fun _ hm => hm) o hall

theorem expandNeighbors_nodup {board : List (List Coord)} {food : Coord}
    {closed : List (Int × Int)} {cur : ANode} {o : List ANode}
    (h2 : (o.map ANode.pos).Nodup) :
    ((expandNeighbors board food closed cur o).map ANode.pos).Nodup :=
  foldl_processMove_nodup moves o h2

theorem expandNeighbors_notclosed {board : List (List Coord)} {food : Coord}
    {closed : List (Int × Int)} {cur : ANode} {o : List ANode}
    (h3 : ∀ x ∈ o, x.pos ∉ closed) :
    ∀ y ∈ expandNeighbors board food closed cur o, y.pos ∉ closed :=
  foldl_processMove_notclosed moves o h3

theorem expandNeighbors_covers {board : List (List Coord)} {food : Coord}
    {closed : List (Int × Int)} {cur : ANode} {o : List ANode} {m : AMove} (hm : m ∈ moves)
    (hv : isValid board (cur.row + m.rowDelta) (cur.col + m.colDelta) = true)
    (hc : (cur.row + m.rowDelta, cur.col + m.colDelta) ∉ closed) :
    ∃ y ∈ expandNeighbors board food closed cur o,
      y.pos = (cur.row + m.rowDelta, cur.col + m.colDelta) ∧ y.g ≤ cur.g + 1 :=
  foldl_processMove_covers moves o m hm hv hc

/-! ### The A* loop invariant -/

theorem isValid_spec (board : List (List Coord)) (r c : Int) :
    isValid board r c = true ↔
      (0 ≤ r ∧ r < boardRows board ∧ 0 ≤ c ∧ c < boardCols board ∧
       ((cellAt board r c).type = CellType.EMPTY ∨ (cellAt board r c).type = CellType.FOOD)) := by
  unfold isValid
  constructor
  · intro h
    by_cases hcond : r < 0 ∨ r ≥ boardRows board ∨ c < 0 ∨ c ≥ boardCols board
    · rw [if_pos hcond] at h
      exact absurd h (by simp)
    · rw [if_neg hcond] at h
      push_neg at hcond
      simp only [Bool.or_eq_true, beq_iff_eq] at h
      exact ⟨by omega, by omega, by omega, by omega, h⟩
  · intro ⟨h1, h2, h3, h4, h5⟩
    rw [if_neg (by omega)]
    simp only [Bool.or_eq_true, beq_iff_eq]
    exact h5

/-- Everything that holds of the open set and closed set at the top of each
A* iteration (once the start has been expanded). -/
structure AInv (board : List (List Coord)) (food : Coord) (start : Int × Int)
    (openSet : List ANode) (closed : List (Int × Int)) : Prop where
  wf : ∀ n ∈ openSet, n.WF board food start
  nodupOpen : (openSet.map ANode.pos).Nodup
  openNotClosed : ∀ n ∈ openSet, n.pos ∉ closed
  nodupClosed : closed.Nodup
  closedScope : ∀ q ∈ closed, q = start ∨ isValid board q.1 q.2 = true
  closedReach : ∀ q ∈ closed, Reach board start q
  frontier : ∀ q ∈ closed, ∀ m ∈ moves,
    isValid board (q.1 + m.rowDelta) (q.2 + m.colDelta) = true →
    (q.1 + m.rowDelta, q.2 + m.colDelta) ∉ closed →
    ∃ n ∈ openSet, n.pos = (q.1 + m.rowDelta, q.2 + m.colDelta) ∧
      n.g ≤ distSP board start q + 1
  startClosed : start ∈ closed
  foodNotClosed : (food.row, food.col) ∉ closed

/-- If any passable path crosses from the closed region to the unexplored
region, the frontier invariant puts an open node on the crossing point. -/
theorem reach_open_node {board : List (List Coord)} {food : Coord} {start : Int × Int}
    {openSet : List ANode} {closed : List (Int × Int)}
    (inv : AInv board food start openSet closed) {t : Int × Int}
    (ht : t ∉ closed) (hr : Reach board start t) : ∃ x, x ∈ openSet := by
  obtain ⟨p, hp⟩ := hr
  obtain ⟨p₁, c, v, q, hsplit, hcmem, hvmem⟩ :=
    boundary_split (fun z => z ∈ closed) p start t hp.1 inv.startClosed hp.2.1 ht
  obtain ⟨hpre, hstep, hchain, hlastz, hlen⟩ := path_split_facts hp hsplit
  obtain ⟨mv, hmv, hveq⟩ := hstep.1
  have hvvalid : isValid board (c.1 + mv.rowDelta) (c.2 + mv.colDelta) = true := by
    have h2 := hstep.2
    rw [hveq] at h2
    exact h2
  have hvnc : (c.1 + mv.rowDelta, c.2 + mv.colDelta) ∉ closed := by
    rw [← hveq]
    exact hvmem
  obtain ⟨nd, hnd, -, -⟩ := inv.frontier c hcmem mv hmv hvvalid hvnc
  exact ⟨nd, hnd⟩

/-- When the minimum-`f` open node is popped, its `g` is exactly the
shortest-path length to its cell: the heart of A* optimality with a
consistent heuristic. -/
theorem pop_g_eq_dist {board : List (List Coord)} {food : Coord} {start : Int × Int}
    {openSet : List ANode} {closed : List (Int × Int)}
    (inv : AInv board food start openSet closed) {n : ANode} (hn : n ∈ openSet)
    (hmin : ∀ x ∈ openSet, n.f ≤ x.f) :
    n.g = distSP board start n.pos := by
  have hwf := inv.wf n hn
  have hge := hwf.dist_le_g
  by_contra hne
  have hlt : distSP board start n.pos < n.g := by omega
  obtain ⟨p, hp, hplen⟩ := distSP_spec hwf.reach
  have hnotmem : n.pos ∉ closed := inv.openNotClosed n hn
  obtain ⟨p₁, c, v, q, hsplit, hcmem, hvmem⟩ :=
    boundary_split (fun z => z ∈ closed) p start n.pos hp.1 inv.startClosed hp.2.1 hnotmem
  obtain ⟨hpre, hstep, hchain, hlastz, hlen⟩ := path_split_facts hp hsplit
  have hdistc : distSP board start c + 1 ≤ p₁.length + 1 := by
    have := distSP_le hpre
    simpa using this
  obtain ⟨mv, hmv, hveq⟩ := hstep.1
  have hvvalid : isValid board (c.1 + mv.rowDelta) (c.2 + mv.colDelta) = true := by
    have h2 := hstep.2
    rw [hveq] at h2
    exact h2
  have hvnc : (c.1 + mv.rowDelta, c.2 + mv.colDelta) ∉ closed := by
    rw [← hveq]
    exact hvmem
  obtain ⟨nd, hnd, hndpos, hndg⟩ := inv.frontier c hcmem mv hmv hvvalid hvnc
  have hposv : nd.pos = v := by rw [hndpos, ← hveq]
  have hmanh : manh v n.pos ≤ q.length := chain_manh_le q v n.pos hchain hlastz
  have hndwf := inv.wf nd hnd
  have hf_nd : nd.f = nd.g + nd.h := hndwf.f_eq
  have hh_nd : nd.h = manh v (food.row, food.col) := by
    rw [hndwf.h_eq, heuristic_eq_manh]
    have : (nd.row, nd.col) = v := hposv
    rw [this]
  have hf_n : n.f = n.g + n.h := hwf.f_eq
  have hh_n : n.h = manh n.pos (food.row, food.col) := by
    rw [hwf.h_eq, heuristic_eq_manh]
    rfl
  have htri := manh_triangle v n.pos (food.row, food.col)
  have hmin_nd := hmin nd hnd
  omega

/-- The closed list never outgrows the board (plus possibly the start). -/
theorem closed_length_le (board : List (List Coord)) {start : Int × Int}
    {closed : List (Int × Int)} (hnodup : closed.Nodup)
    (hscope : ∀ q ∈ closed, q = start ∨ isValid board q.1 q.2 = true) :
    closed.length ≤ (boardRows board).toNat * (boardCols board).toNat + 1 := by
  classical
  have hsub : closed.toFinset ⊆
      insert start ((Finset.Ico (0 : Int) (boardRows board)) ×ˢ
        (Finset.Ico (0 : Int) (boardCols board))) := by
    intro q hq
    rw [List.mem_toFinset] at hq
    rcases hscope q hq with h | h
    · rw [h]
      exact Finset.mem_insert_self _ _
    · refine Finset.mem_insert_of_mem ?_
      rw [Finset.mem_product, Finset.mem_Ico, Finset.mem_Ico]
      obtain ⟨h1, h2, h3, h4, -⟩ := (isValid_spec board q.1 q.2).mp h
      exact ⟨⟨h1, h2⟩, h3, h4⟩
  have h1 : closed.length = closed.toFinset.card :=
    (List.toFinset_card_of_nodup hnodup).symm
  have h2 := Finset.card_le_card hsub
  have h3 := Finset.card_insert_le start ((Finset.Ico (0 : Int) (boardRows board)) ×ˢ
    (Finset.Ico (0 : Int) (boardCols board)))
  have h4 : ((Finset.Ico (0 : Int) (boardRows board)) ×ˢ
      (Finset.Ico (0 : Int) (boardCols board))).card =
      (boardRows board).toNat * (boardCols board).toNat := by
    rw [Finset.card_product, Int.card_Ico, Int.card_Ico]
    simp
  omega

/-- One non-food iteration of the loop preserves the invariant: pop the
minimum node, close its cell, expand its neighbors. -/
theorem inv_step {board : List (List Coord)} {food : Coord} {start : Int × Int}
    {openSet rest : List ANode} {closed : List (Int × Int)} {n : ANode}
    (hpop : sortByF openSet = n :: rest)
    (hwfall : ∀ x ∈ openSet, x.WF board food start)
    (hnodupO : (openSet.map ANode.pos).Nodup)
    (hONC : ∀ x ∈ openSet, x.pos ∉ closed)
    (hnodupC : closed.Nodup)
    (hscope : ∀ q ∈ closed, q = start ∨ isValid board q.1 q.2 = true)
    (hreachC : ∀ q ∈ closed, Reach board start q)
    (hfrontier : ∀ q ∈ closed, ∀ m ∈ moves,
      isValid board (q.1 + m.rowDelta) (q.2 + m.colDelta) = true →
      (q.1 + m.rowDelta, q.2 + m.colDelta) ∉ closed →
      ∃ x ∈ openSet, x.pos = (q.1 + m.rowDelta, q.2 + m.colDelta) ∧
        x.g ≤ distSP board start q + 1)
    (hgn : n.g = distSP board start n.pos)
    (hstart1 : start ∈ n.pos :: closed)
    (hfood1 : (food.row, food.col) ∉ n.pos :: closed) :
    AInv board food start (expandNeighbors board food (n.pos :: closed) n rest)
      (n.pos :: closed) := by
  have hperm : (n :: rest).Perm openSet := hpop ▸ sortByF_perm openSet
  have hnmem : n ∈ openSet := hperm.subset (List.mem_cons_self _ _)
  have hrestmem : ∀ x ∈ rest, x ∈ openSet := fun x hx =>
    hperm.subset (List.mem_cons_of_mem _ hx)
  have hwfn : n.WF board food start := hwfall n hnmem
  have hsortnodup : ((n :: rest).map ANode.pos).Nodup :=
    (hperm.map ANode.pos).symm.nodup_iff.mp hnodupO
  have hnposnotrest : n.pos ∉ rest.map ANode.pos := by
    rw [List.map_cons, List.nodup_cons] at hsortnodup
    exact hsortnodup.1
  have hrestnodup : (rest.map ANode.pos).Nodup := by
    rw [List.map_cons, List.nodup_cons] at hsortnodup
    exact hsortnodup.2
  have hrest1 : ∀ x ∈ rest, x.pos ∉ n.pos :: closed := by
    intro x hx
    rw [List.mem_cons]
    rintro (h | h)
    · exact hnposnotrest (h ▸ List.mem_map_of_mem ANode.pos hx)
    · exact hONC x (hrestmem x hx) h
  have hwfrest : ∀ x ∈ rest, x.WF board food start := fun x hx => hwfall x (hrestmem x hx)
  refine ⟨?_, ?_, ?_, ?_, ?_, ?_, ?_, hstart1, hfood1⟩
  · exact expandNeighbors_wf hwfn hwfrest
  · exact expandNeighbors_nodup hrestnodup
  · exact expandNeighbors_notclosed hrest1
  · rw [List.nodup_cons]
    exact ⟨hONC n hnmem, hnodupC⟩
  · intro q hq
    rcases List.mem_cons.mp hq with rfl | hq
    · have := hwfn.pos_scope
      rcases this with h | h
      · exact Or.inl h
      · exact Or.inr h
    · exact hscope q hq
  · intro q hq
    rcases List.mem_cons.mp hq with rfl | hq
    · exact hwfn.reach
    · exact hreachC q hq
  · intro q hq m hm hv hc
    rcases List.mem_cons.mp hq with rfl | hq
    · -- the newly closed cell: its open neighbors were just pushed/relaxed
      have hv2 : isValid board (n.row + m.rowDelta) (n.col + m.colDelta) = true := hv
      have hc2 : (n.row + m.rowDelta, n.col + m.colDelta) ∉ n.pos :: closed := hc
      obtain ⟨y, hy, hpos, hgle⟩ := expandNeighbors_covers hm hv2 hc2
      exact ⟨y, hy, hpos, by omega⟩
    · -- previously closed cells: their frontier nodes survive with smaller g
      have hcw : (q.1 + m.rowDelta, q.2 + m.colDelta) ∉ closed := fun h =>
        hc (List.mem_cons_of_mem _ h)
      obtain ⟨x, hx, hxpos, hxg⟩ := hfrontier q hq m hm hv hcw
      have hxrest : x ∈ rest := by
        rcases List.mem_cons.mp (hperm.symm.subset hx) with rfl | h
        · exfalso
          apply hc
          rw [← hxpos]
          exact List.mem_cons_self _ _
        · exact h
      obtain ⟨y, hy, hypos, hyg⟩ := expandNeighbors_mono x hxrest
      exact ⟨y, hy, hypos.trans hxpos, by omega⟩

theorem astarLoop_succ (board : List (List Coord)) (food stC : Coord) (fuel : Nat)
    (o : List ANode) (cl : List (Int × Int)) :
    astarLoop board food stC (fuel + 1) o cl =
      match sortByF o with
      | [] => none
      | current :: rest =>
        if current.row = food.row ∧ current.col = food.col then
          if (current.chain.reverse).length < 2 then none
          else
            let nextStep := (current.chain.reverse).getD 1 current
            if nextStep.row < stC.row then some Direction.UP
            else if nextStep.row > stC.row then some Direction.DOWN
            else if nextStep.col < stC.col then some Direction.LEFT
            else if nextStep.col > stC.col then some Direction.RIGHT
            else astarLoop board food stC fuel
              (expandNeighbors board food ((current.row, current.col) :: cl) current rest)
              ((current.row, current.col) :: cl)
        else astarLoop board food stC fuel
          (expandNeighbors board food ((current.row, current.col) :: cl) current rest)
          ((current.row, current.col) :: cl) := rfl

theorem wf_g_zero_pos {board : List (List Coord)} {food : Coord} {start : Int × Int}
    {n : ANode} (hwf : n.WF board food start) (hg : n.g = 0) : n.pos = start := by
  rcases n with ⟨r, c, g, h, f, _ | p⟩ <;> simp only [ANode.WF] at hwf
  · simp only [ANode.pos, ANode.row, ANode.col, hwf.1, hwf.2.1]
  · simp only [ANode.g] at hg
    omega

/-- What the planner returns on success: the direction of one of the four
`moves`, whose target cell is in bounds and passable and is the second cell of
a shortest passable path from the start to the food. -/
def FoundDir (board : List (List Coord)) (start fpos : Int × Int)
    (res : Option Direction) : Prop :=
  ∃ m ∈ moves, res = some m.dir ∧
    isValid board (start.1 + m.rowDelta) (start.2 + m.colDelta) = true ∧
    ∃ p, IsPathTo board start fpos p ∧ p.length = distSP board start fpos + 1 ∧
      p.get? 1 = some (start.1 + m.rowDelta, start.2 + m.colDelta)

theorem astarLoop_spec (board : List (List Coord)) (food stC : Coord) :
    ∀ (fuel : Nat) (openSet : List ANode) (closed : List (Int × Int)),
      AInv board food (stC.row, stC.col) openSet closed →
      (boardRows board).toNat * (boardCols board).toNat + 2 ≤ fuel + closed.length →
      (Reach board (stC.row, stC.col) (food.row, food.col) →
        FoundDir board (stC.row, stC.col) (food.row, food.col)
          (astarLoop board food stC fuel openSet closed)) ∧
      (¬ Reach board (stC.row, stC.col) (food.row, food.col) →
        astarLoop board food stC fuel openSet closed = none) := by
  intro fuel
  induction fuel with
  | zero =>
    intro openSet closed inv hfuel
    exfalso
    have := closed_length_le board inv.nodupClosed inv.closedScope
    omega
  | succ fuel ih =>
    intro openSet closed inv hfuel
    cases hsort : sortByF openSet with
    | nil =>
      have hempty : openSet = [] := by
        have hp := sortByF_perm openSet
        rw [hsort] at hp
        exact (hp.symm.eq_nil)
      constructor
      · intro hR
        exfalso
        obtain ⟨x, hx⟩ := reach_open_node inv inv.foodNotClosed hR
        rw [hempty] at hx
        simp at hx
      · intro _
        rw [astarLoop_succ, hsort]
    | cons cur rest =>
      have hmin : ∀ x ∈ openSet, cur.f ≤ x.f := sortByF_head_min hsort
      have hperm : (cur :: rest).Perm openSet := hsort ▸ sortByF_perm openSet
      have hcurmem : cur ∈ openSet := hperm.subset (List.mem_cons_self _ _)
      have hcurwf := inv.wf cur hcurmem
      have hgd := pop_g_eq_dist inv hcurmem hmin
      by_cases hfood : cur.row = food.row ∧ cur.col = food.col
      · -- the food cell is popped: the search ends with a direction
        have hposf : cur.pos = (food.row, food.col) := by
          simp only [ANode.pos, hfood.1, hfood.2]
        have hcg : 1 ≤ cur.g := by
          by_contra hcg0
          have hg0 : cur.g = 0 := by omega
          apply inv.openNotClosed cur hcurmem
          rw [wf_g_zero_pos hcurwf hg0]
          exact inv.startClosed
        obtain ⟨c1, m, hm, hget, hc1pos, hc1val, hcpos1⟩ :=
          wf_chain_second board food (stC.row, stC.col) cur hcurwf hcg
        obtain ⟨hpath, hplen⟩ := wf_chain_path board food (stC.row, stC.col) cur hcurwf
        have hlenrev : cur.chain.reverse.length = cur.g + 1 := by
          simpa [chainPos] using hplen
        have hnot2 : ¬ cur.chain.reverse.length < 2 := by omega
        have hgetD : cur.chain.reverse.getD 1 cur = c1 := by
          rw [List.getD_eq_getD_get?, hget]
          rfl
        have hc1row : c1.row = stC.row + m.rowDelta := by
          have := congrArg Prod.fst hc1pos
          simpa [ANode.pos] using this
        have hc1col : c1.col = stC.col + m.colDelta := by
          have := congrArg Prod.snd hc1pos
          simpa [ANode.pos] using this
        have hfound : FoundDir board (stC.row, stC.col) (food.row, food.col)
            (astarLoop board food stC (fuel + 1) openSet closed) := by
          have hval2 : isValid board (stC.row + m.rowDelta) (stC.col + m.colDelta) = true := by
            rw [← hc1row, ← hc1col]
            exact hc1val
          have hwitness : ∃ p, IsPathTo board (stC.row, stC.col) (food.row, food.col) p ∧
              p.length = distSP board (stC.row, stC.col) (food.row, food.col) + 1 ∧
              p.get? 1 = some (stC.row + m.rowDelta, stC.col + m.colDelta) := by
            refine ⟨chainPos cur, ?_, ?_, ?_⟩
            · rw [← hposf]
              exact hpath
            · rw [hplen, hgd, hposf]
            · rw [hcpos1, hc1pos]
          refine ⟨m, hm, ?_, hval2, hwitness⟩
          rw [astarLoop_succ, hsort]
          simp only [if_pos hfood, if_neg hnot2, hgetD]
          simp only [moves, List.mem_cons, List.not_mem_nil, or_false] at hm
          rcases hm with rfl | rfl | rfl | rfl
          · have hr : c1.row = stC.row + (-1 : Int) := hc1row
            rw [if_pos (by omega)]
          · have hr : c1.row = stC.row + (1 : Int) := hc1row
            rw [if_neg (by omega), if_pos (by omega)]
          · have hr : c1.row = stC.row + (0 : Int) := hc1row
            have hco : c1.col = stC.col + (-1 : Int) := hc1col
            rw [if_neg (by omega), if_neg (by omega), if_pos (by omega)]
          · have hr : c1.row = stC.row + (0 : Int) := hc1row
            have hco : c1.col = stC.col + (1 : Int) := hc1col
            rw [if_neg (by omega), if_neg (by omega), if_neg (by omega),
              if_pos (by omega)]
        constructor
        · intro _
          exact hfound
        · intro hnr
          exfalso
          apply hnr
          rw [← hposf]
          exact hcurwf.reach
      · -- an ordinary cell is popped: expand and recurse
        have hposnf : (food.row, food.col) ∉ cur.pos :: closed := by
          rw [List.mem_cons]
          rintro (h | h)
          · apply hfood
            have h1 := congrArg Prod.fst h
            have h2 := congrArg Prod.snd h
            simp only [ANode.pos] at h1 h2
            exact ⟨h1.symm, h2.symm⟩
          · exact inv.foodNotClosed h
        have inv1 := inv_step hsort inv.wf inv.nodupOpen inv.openNotClosed
          inv.nodupClosed inv.closedScope inv.closedReach inv.frontier hgd
          (List.mem_cons_of_mem _ inv.startClosed) hposnf
        have hnext := ih (expandNeighbors board food (cur.pos :: closed) cur rest)
          (cur.pos :: closed) inv1 (by simp only [List.length_cons]; omega)
        rw [astarLoop_succ, hsort]
        simp only [if_neg hfood]
        exact hnext

theorem sortByF_singleton (n : ANode) : sortByF [n] = [n] := rfl

theorem distSP_self (board : List (List Coord)) (s : Int × Int) :
    distSP board s s = 0 := by
  have h : 0 ∈ pathLens board s s :=
    ⟨[s], ⟨rfl, rfl, List.chain'_singleton _⟩, rfl⟩
  have := Nat.sInf_le h
  unfold distSP
  omega

theorem astarLoop_succ_cons (board : List (List Coord)) (food stC : Coord) (fuel : Nat)
    (o : List ANode) (cl : List (Int × Int)) (cur : ANode) (rest : List ANode)
    (h : sortByF o = cur :: rest) :
    astarLoop board food stC (fuel + 1) o cl =
      if cur.row = food.row ∧ cur.col = food.col then
        if (cur.chain.reverse).length < 2 then none
        else
          let nextStep := (cur.chain.reverse).getD 1 cur
          if nextStep.row < stC.row then some Direction.UP
          else if nextStep.row > stC.row then some Direction.DOWN
          else if nextStep.col < stC.col then some Direction.LEFT
          else if nextStep.col > stC.col then some Direction.RIGHT
          else astarLoop board food stC fuel
            (expandNeighbors board food ((cur.row, cur.col) :: cl) cur rest)
            ((cur.row, cur.col) :: cl)
      else astarLoop board food stC fuel
        (expandNeighbors board food ((cur.row, cur.col) :: cl) cur rest)
        ((cur.row, cur.col) :: cl) := by
  rw [astarLoop_succ, h]

/-- The complete behavior of the planner on a non-empty snake: `null` when
the head is already on the food; `null` when the food is unreachable; and
otherwise a direction of a first step along a shortest passable path. -/
theorem findShortestWayToFood_spec (board : List (List Coord)) (stC : Coord)
    (tl : List Coord) (food : Coord) :
    ((stC.row, stC.col) = (food.row, food.col) →
      findShortestWayToFood board (stC :: tl) food = none) ∧
    ((stC.row, stC.col) ≠ (food.row, food.col) →
      Reach board (stC.row, stC.col) (food.row, food.col) →
      FoundDir board (stC.row, stC.col) (food.row, food.col)
        (findShortestWayToFood board (stC :: tl) food)) ∧
    (¬ Reach board (stC.row, stC.col) (food.row, food.col) →
      findShortestWayToFood board (stC :: tl) food = none) := by
  have hfuel2 : (boardRows board).toNat * (boardCols board).toNat + 2 =
      ((boardRows board).toNat * (boardCols board).toNat + 1) + 1 := rfl
  by_cases hst : (stC.row, stC.col) = (food.row, food.col)
  · -- head already on the food: the first popped node is the start, path too short
    have hnone : findShortestWayToFood board (stC :: tl) food = none := by
      show astarLoop board food stC
        ((boardRows board).toNat * (boardCols board).toNat + 2)
        [ANode.mk stC.row stC.col 0 (heuristic food stC.row stC.col)
          (heuristic food stC.row stC.col) none] [] = none
      rw [hfuel2, astarLoop_succ_cons board food stC _ _ _ _ _ (sortByF_singleton _)]
      rw [if_pos ⟨congrArg Prod.fst hst, congrArg Prod.snd hst⟩]
      have hlt : (ANode.mk stC.row stC.col 0 (heuristic food stC.row stC.col)
          (heuristic food stC.row stC.col) none).chain.reverse.length < 2 :=
        Nat.one_lt_two
      rw [if_pos hlt]
    exact ⟨fun _ => hnone, fun hne _ => absurd hst hne, fun _ => hnone⟩
  · -- head distinct from the food: the start is expanded and the loop invariant holds
    have hstne : ¬((ANode.mk stC.row stC.col 0 (heuristic food stC.row stC.col)
        (heuristic food stC.row stC.col) none).row = food.row ∧
        (ANode.mk stC.row stC.col 0 (heuristic food stC.row stC.col)
        (heuristic food stC.row stC.col) none).col = food.col) := by
      intro ⟨h1, h2⟩
      apply hst
      have h1b : stC.row = food.row := h1
      have h2b : stC.col = food.col := h2
      rw [h1b, h2b]
    have heq : findShortestWayToFood board (stC :: tl) food =
        astarLoop board food stC ((boardRows board).toNat * (boardCols board).toNat + 1)
          (expandNeighbors board food [(stC.row, stC.col)]
            (ANode.mk stC.row stC.col 0 (heuristic food stC.row stC.col)
              (heuristic food stC.row stC.col) none) [])
          [(stC.row, stC.col)] := by
      show astarLoop board food stC
        ((boardRows board).toNat * (boardCols board).toNat + 2)
        [ANode.mk stC.row stC.col 0 (heuristic food stC.row stC.col)
          (heuristic food stC.row stC.col) none] [] = _
      rw [hfuel2, astarLoop_succ_cons board food stC _ _ _ _ _ (sortByF_singleton _)]
      rw [if_neg hstne]
      rfl
    have hfoodne : (food.row, food.col) ∉
        ((ANode.mk stC.row stC.col 0 (heuristic food stC.row stC.col)
          (heuristic food stC.row stC.col) none).pos : Int × Int) :: ([] : List (Int × Int)) := by
      rw [List.mem_cons]
      rintro (h | h)
      · exact hst (h.symm)
      · simp at h
    have inv1 := @inv_step board food (stC.row, stC.col)
      [ANode.mk stC.row stC.col 0 (heuristic food stC.row stC.col)
        (heuristic food stC.row stC.col) none] []
      []
      (ANode.mk stC.row stC.col 0 (heuristic food stC.row stC.col)
        (heuristic food stC.row stC.col) none)
      (sortByF_singleton (ANode.mk stC.row stC.col 0 (heuristic food stC.row stC.col)
        (heuristic food stC.row stC.col) none))
      (by
        intro x hx
        rw [List.mem_singleton] at hx
        subst hx
        exact ⟨rfl, rfl, rfl, rfl, rfl⟩)
      (by simp)
      (by simp)
      List.nodup_nil
      (by simp)
      (by simp)
      (by simp)
      ((distSP_self board (stC.row, stC.col)).symm)
      (List.mem_cons_self _ _)
      hfoodne
    obtain ⟨hA, hB⟩ := astarLoop_spec board food stC
      ((boardRows board).toNat * (boardCols board).toNat + 1)
      (expandNeighbors board food [(stC.row, stC.col)]
        (ANode.mk stC.row stC.col 0 (heuristic food stC.row stC.col)
          (heuristic food stC.row stC.col) none) [])
      [(stC.row, stC.col)] inv1 (by simp)
    refine ⟨fun h => absurd h hst, fun _ hr => ?_, fun hnr => ?_⟩
    · rw [heq]
      exact hA hr
    · rw [heq]
      exact hB hnr

/-! ### The step semantics of the simulation -/

/-- The cell adjacent to `q` in direction `d` — where a driver following the
planner's answer moves the head next. -/
def dirTarget (q : Int × Int) : Direction → Int × Int
  | Direction.UP => (q.1 - 1, q.2)
  | Direction.DOWN => (q.1 + 1, q.2)
  | Direction.LEFT => (q.1, q.2 - 1)
  | Direction.RIGHT => (q.1, q.2 + 1)

theorem dirTarget_moves (q : Int × Int) {m : AMove} (hm : m ∈ moves) :
    dirTarget q m.dir = (q.1 + m.rowDelta, q.2 + m.colDelta) := by
  simp only [moves, List.mem_cons, List.not_mem_nil, or_false] at hm
  rcases hm with rfl | rfl | rfl | rfl
  · show (q.1 - 1, q.2) = (q.1 + (-1 : Int), q.2 + (0 : Int))
    rw [Prod.mk.injEq]
    constructor <;> omega
  · show (q.1 + 1, q.2) = (q.1 + (1 : Int), q.2 + (0 : Int))
    rw [Prod.mk.injEq]
    constructor <;> omega
  · show (q.1, q.2 - 1) = (q.1 + (0 : Int), q.2 + (-1 : Int))
    rw [Prod.mk.injEq]
    constructor <;> omega
  · show (q.1, q.2 + 1) = (q.1 + (0 : Int), q.2 + (1 : Int))
    rw [Prod.mk.injEq]
    constructor <;> omega

theorem advanceHead_pos {τ : Type} (head : GCoord τ) (t : τ) (d : Direction) :
    (advanceHead head t d).pos = dirTarget head.pos d := by
  cases d <;> rfl

theorem advanceHead_manh {τ : Type} (head : GCoord τ) (t : τ) (d : Direction) :
    manh (advanceHead head t d).pos head.pos = 1 := by
  cases d <;> simp [advanceHead, GCoord.pos, manh]

theorem chain'_dropLast {α : Type} {R : α → α → Prop} {l : List α}
    (h : List.Chain' R l) : List.Chain' R l.dropLast := by
  rcases eq_or_ne l [] with rfl | hne
  · simp
  · have heq := List.dropLast_append_getLast hne
    rw [← heq] at h
    exact (List.chain'_append.mp h).1

/-- The two body shapes produced by a surviving step (grow on food, otherwise
shift) both preserve the body invariant: distinct cells, 4-adjacent
consecutive cells, positive length. -/
theorem step_body_good {τ : Type} (hd : GCoord τ) (tl : List (GCoord τ)) (t : τ)
    (d : Direction)
    (hnodup : (cellsOf (hd :: tl)).Nodup)
    (hadj : List.Chain' (fun a b => manh a b = 1) (cellsOf (hd :: tl)))
    (hnocol : ∀ s ∈ hd :: tl,
      ¬(s.row = (advanceHead hd t d).row ∧ s.col = (advanceHead hd t d).col))
    (body : List (GCoord τ))
    (hbody : body = advanceHead hd t d :: (hd :: tl) ∨
      body = advanceHead hd t d :: (hd :: tl).dropLast) :
    (cellsOf body).Nodup ∧ List.Chain' (fun a b => manh a b = 1) (cellsOf body) ∧
      1 ≤ body.length := by
  have hnew_notin : (advanceHead hd t d).pos ∉ cellsOf (hd :: tl) := by
    intro hmem
    obtain ⟨s, hs, hspos⟩ := List.mem_map.mp hmem
    apply hnocol s hs
    have h1 := congrArg Prod.fst hspos
    have h2 := congrArg Prod.snd hspos
    exact ⟨h1, h2⟩
  rcases hbody with rfl | rfl
  · refine ⟨?_, ?_, ?_⟩
    · rw [cellsOf, List.map_cons, List.nodup_cons]
      exact ⟨hnew_notin, hnodup⟩
    · rw [cellsOf, List.map_cons]
      rw [List.chain'_cons']
      refine ⟨?_, hadj⟩
      intro y hy
      simp only [cellsOf, List.map_cons, List.head?_cons, Option.mem_def,
        Option.some.injEq] at hy
      rw [← hy]
      exact advanceHead_manh hd t d
    · simp
  · refine ⟨?_, ?_, ?_⟩
    · rw [cellsOf, List.map_cons, List.map_dropLast, List.nodup_cons]
      constructor
      · intro hmem
        exact hnew_notin ((List.dropLast_sublist _).subset hmem)
      · exact hnodup.sublist (List.dropLast_sublist _)
    · rw [cellsOf, List.map_cons, List.map_dropLast]
      rw [List.chain'_cons']
      refine ⟨?_, chain'_dropLast hadj⟩
      intro y hy
      rw [List.head?_dropLast] at hy
      by_cases hlen : 1 < (List.map GCoord.pos (hd :: tl)).length
      · rw [if_pos hlen] at hy
        simp only [List.map_cons, List.head?_cons, Option.mem_def,
          Option.some.injEq] at hy
        rw [← hy]
        exact advanceHead_manh hd t d
      · rw [if_neg hlen] at hy
        simp at hy
    · simp

namespace SnakeGame

theorem move_wall {R C : Int} {board : Board} {hd : Coord} {tl : List Coord}
    {dir : Direction} {food : Option Coord}
    (h : (advanceHead hd CellType.SNAKE dir).row < 0 ∨
         (advanceHead hd CellType.SNAKE dir).row ≥ R ∨
         (advanceHead hd CellType.SNAKE dir).col < 0 ∨
         (advanceHead hd CellType.SNAKE dir).col ≥ C) :
    move R C board (hd :: tl) dir food =
      ⟨MoveOutcome.hitWall, hd :: tl, food, board⟩ := by
  simp only [move]
  rw [if_pos h]

theorem move_self {R C : Int} {board : Board} {hd : Coord} {tl : List Coord}
    {dir : Direction} {food : Option Coord}
    (hw : ¬((advanceHead hd CellType.SNAKE dir).row < 0 ∨
         (advanceHead hd CellType.SNAKE dir).row ≥ R ∨
         (advanceHead hd CellType.SNAKE dir).col < 0 ∨
         (advanceHead hd CellType.SNAKE dir).col ≥ C))
    (hs : (hd :: tl).any (fun s => s.row == (advanceHead hd CellType.SNAKE dir).row &&
      s.col == (advanceHead hd CellType.SNAKE dir).col) = true) :
    move R C board (hd :: tl) dir food =
      ⟨MoveOutcome.hitSelf, hd :: tl, food, board⟩ := by
  simp only [move]
  rw [if_neg hw, if_pos hs]

theorem move_step_ate {R C : Int} {board : Board} {hd : Coord} {tl : List Coord}
    {dir : Direction} {fc : Coord}
    (hw : ¬((advanceHead hd CellType.SNAKE dir).row < 0 ∨
         (advanceHead hd CellType.SNAKE dir).row ≥ R ∨
         (advanceHead hd CellType.SNAKE dir).col < 0 ∨
         (advanceHead hd CellType.SNAKE dir).col ≥ C))
    (hs : (hd :: tl).any (fun s => s.row == (advanceHead hd CellType.SNAKE dir).row &&
      s.col == (advanceHead hd CellType.SNAKE dir).col) = false)
    (hrow : (advanceHead hd CellType.SNAKE dir).row = fc.row)
    (hcol : (advanceHead hd CellType.SNAKE dir).col = fc.col) :
    (move R C board (hd :: tl) dir (some fc)).outcome = MoveOutcome.ate ∧
    (move R C board (hd :: tl) dir (some fc)).snake =
      advanceHead hd CellType.SNAKE dir :: hd :: tl ∧
    (move R C board (hd :: tl) dir (some fc)).food = none := by
  simp only [move]
  rw [if_neg hw, if_neg (by simp [hs])]
  simp [hrow, hcol]

theorem move_step_noate {R C : Int} {board : Board} {hd : Coord} {tl : List Coord}
    {dir : Direction} {food : Option Coord}
    (hw : ¬((advanceHead hd CellType.SNAKE dir).row < 0 ∨
         (advanceHead hd CellType.SNAKE dir).row ≥ R ∨
         (advanceHead hd CellType.SNAKE dir).col < 0 ∨
         (advanceHead hd CellType.SNAKE dir).col ≥ C))
    (hs : (hd :: tl).any (fun s => s.row == (advanceHead hd CellType.SNAKE dir).row &&
      s.col == (advanceHead hd CellType.SNAKE dir).col) = false)
    (hnot : ∀ fc, food = some fc → ¬((advanceHead hd CellType.SNAKE dir).row = fc.row ∧
      (advanceHead hd CellType.SNAKE dir).col = fc.col)) :
    (move R C board (hd :: tl) dir food).outcome = MoveOutcome.continued ∧
    (move R C board (hd :: tl) dir food).snake =
      advanceHead hd CellType.SNAKE dir :: (hd :: tl).dropLast ∧
    (move R C board (hd :: tl) dir food).food = food := by
  simp only [move]
  rw [if_neg hw, if_neg (by simp [hs])]
  cases food with
  | none => simp
  | some fc =>
    have := hnot fc rfl
    have hb : ((advanceHead hd CellType.SNAKE dir).row == fc.row &&
        (advanceHead hd CellType.SNAKE dir).col == fc.col) = false := by
      rw [Bool.and_eq_false_iff]
      by_cases h1 : (advanceHead hd CellType.SNAKE dir).row = fc.row
      · right
        simp only [beq_eq_false_iff_ne, ne_eq]
        intro h2
        exact this ⟨h1, h2⟩
      · left
        simp only [beq_eq_false_iff_ne, ne_eq]
        exact h1
    simp [hb]

end SnakeGame

namespace SnakeTwo

theorem moveSnake_wall {food : Option Coord} {hd : Coord} {tl : List Coord}
    {dir : Direction} {t : CellType}
    (h : (advanceHead hd t dir).row < 0 ∨ (advanceHead hd t dir).row ≥ BOARD_ROWS ∨
         (advanceHead hd t dir).col < 0 ∨ (advanceHead hd t dir).col ≥ BOARD_COLS) :
    moveSnake food (hd :: tl) dir t = none := by
  simp only [moveSnake]
  rw [if_pos h]

theorem moveSnake_self {food : Option Coord} {hd : Coord} {tl : List Coord}
    {dir : Direction} {t : CellType}
    (hw : ¬((advanceHead hd t dir).row < 0 ∨ (advanceHead hd t dir).row ≥ BOARD_ROWS ∨
         (advanceHead hd t dir).col < 0 ∨ (advanceHead hd t dir).col ≥ BOARD_COLS))
    (hs : (hd :: tl).any (fun seg => seg.row == (advanceHead hd t dir).row &&
      seg.col == (advanceHead hd t dir).col) = true) :
    moveSnake food (hd :: tl) dir t = none := by
  simp only [moveSnake]
  rw [if_neg hw, if_pos hs]

theorem moveSnake_step_ate {hd : Coord} {tl : List Coord} {dir : Direction}
    {t : CellType} {fc : Coord}
    (hw : ¬((advanceHead hd t dir).row < 0 ∨ (advanceHead hd t dir).row ≥ BOARD_ROWS ∨
         (advanceHead hd t dir).col < 0 ∨ (advanceHead hd t dir).col ≥ BOARD_COLS))
    (hs : (hd :: tl).any (fun seg => seg.row == (advanceHead hd t dir).row &&
      seg.col == (advanceHead hd t dir).col) = false)
    (hrow : (advanceHead hd t dir).row = fc.row)
    (hcol : (advanceHead hd t dir).col = fc.col) :
    moveSnake (some fc) (hd :: tl) dir t = some (advanceHead hd t dir :: hd :: tl) := by
  simp only [moveSnake]
  rw [if_neg hw, if_neg (by simp [hs])]
  simp [hrow, hcol]

theorem moveSnake_step_noate {food : Option Coord} {hd : Coord} {tl : List Coord}
    {dir : Direction} {t : CellType}
    (hw : ¬((advanceHead hd t dir).row < 0 ∨ (advanceHead hd t dir).row ≥ BOARD_ROWS ∨
         (advanceHead hd t dir).col < 0 ∨ (advanceHead hd t dir).col ≥ BOARD_COLS))
    (hs : (hd :: tl).any (fun seg => seg.row == (advanceHead hd t dir).row &&
      seg.col == (advanceHead hd t dir).col) = false)
    (hnot : ∀ fc, food = some fc → ¬((advanceHead hd t dir).row = fc.row ∧
      (advanceHead hd t dir).col = fc.col)) :
    moveSnake food (hd :: tl) dir t = some (advanceHead hd t dir :: (hd :: tl).dropLast) := by
  simp only [moveSnake]
  rw [if_neg hw, if_neg (by simp [hs])]
  cases food with
  | none => simp
  | some fc =>
    have hn := hnot fc rfl
    have hb : ((advanceHead hd t dir).row == fc.row &&
        (advanceHead hd t dir).col == fc.col) = false := by
      rw [Bool.and_eq_false_iff]
      by_cases h1 : (advanceHead hd t dir).row = fc.row
      · right
        simp only [beq_eq_false_iff_ne, ne_eq]
        intro h2
        exact hn ⟨h1, h2⟩
      · left
        simp only [beq_eq_false_iff_ne, ne_eq]
        exact h1
    simp [hb]

end SnakeTwo

/-! ### Claim theorems for the simulation step -/

theorem any_eq_false_of_nocol {τ : Type} {l : List (GCoord τ)} {nh : GCoord τ}
    (h : ∀ s ∈ l, ¬(s.row = nh.row ∧ s.col = nh.col)) :
    l.any (fun s => s.row == nh.row && s.col == nh.col) = false := by
  rw [List.any_eq_false]
  intro s hs
  simp only [Bool.and_eq_true, beq_iff_eq, not_and]
  intro h1 h2
  exact h s hs ⟨h1, h2⟩

theorem nocol_of_any_eq_false {τ : Type} {l : List (GCoord τ)} {nh : GCoord τ}
    (h : l.any (fun s => s.row == nh.row && s.col == nh.col) = false) :
    ∀ s ∈ l, ¬(s.row = nh.row ∧ s.col = nh.col) := by
  rw [List.any_eq_false] at h
  intro s hs hcol
  apply h s hs
  simp only [Bool.and_eq_true, beq_iff_eq]
  exact hcol

/-- C2: a live agent's body invariant — pairwise-distinct cells, 4-adjacent
consecutive cells, length at least one — is preserved by any `move` /
`moveSnake` step that does not kill (return `null` for) the agent. -/
theorem claim_C2 :
    (∀ (R C : Int) (board : SnakeGame.Board) (hd : Coord) (tl : List Coord)
        (dir : Direction) (food : Option Coord),
      (cellsOf (hd :: tl)).Nodup →
      List.Chain' (fun a b => manh a b = 1) (cellsOf (hd :: tl)) →
      (SnakeGame.move R C board (hd :: tl) dir food).outcome ≠ SnakeGame.MoveOutcome.hitWall →
      (SnakeGame.move R C board (hd :: tl) dir food).outcome ≠ SnakeGame.MoveOutcome.hitSelf →
      (cellsOf (SnakeGame.move R C board (hd :: tl) dir food).snake).Nodup ∧
      List.Chain' (fun a b => manh a b = 1)
        (cellsOf (SnakeGame.move R C board (hd :: tl) dir food).snake) ∧
      1 ≤ (SnakeGame.move R C board (hd :: tl) dir food).snake.length) ∧
    (∀ (food : Option SnakeTwo.Coord) (hd : SnakeTwo.Coord) (tl : List SnakeTwo.Coord)
        (dir : Direction) (t : SnakeTwo.CellType) (s2 : List SnakeTwo.Coord),
      (cellsOf (hd :: tl)).Nodup →
      List.Chain' (fun a b => manh a b = 1) (cellsOf (hd :: tl)) →
      SnakeTwo.moveSnake food (hd :: tl) dir t = some s2 →
      (cellsOf s2).Nodup ∧ List.Chain' (fun a b => manh a b = 1) (cellsOf s2) ∧
      1 ≤ s2.length) := by
  constructor
  · intro R C board hd tl dir food hnodup hadj hw hs
    by_cases hwall : (advanceHead hd CellType.SNAKE dir).row < 0 ∨
        (advanceHead hd CellType.SNAKE dir).row ≥ R ∨
        (advanceHead hd CellType.SNAKE dir).col < 0 ∨
        (advanceHead hd CellType.SNAKE dir).col ≥ C
    · rw [SnakeGame.move_wall hwall] at hw
      exact absurd rfl hw
    · cases hany : (hd :: tl).any (fun s => s.row == (advanceHead hd CellType.SNAKE dir).row &&
        s.col == (advanceHead hd CellType.SNAKE dir).col) with
      | true =>
        rw [SnakeGame.move_self hwall hany] at hs
        exact absurd rfl hs
      | false =>
        have hnocol := nocol_of_any_eq_false hany
        cases food with
        | none =>
          obtain ⟨-, hsn, -⟩ := @SnakeGame.move_step_noate R C board hd tl dir none
            hwall hany (by intro fc h; cases h)
          rw [hsn]
          exact step_body_good hd tl CellType.SNAKE dir hnodup hadj hnocol _ (Or.inr rfl)
        | some fc =>
          by_cases hate : (advanceHead hd CellType.SNAKE dir).row = fc.row ∧
              (advanceHead hd CellType.SNAKE dir).col = fc.col
          · obtain ⟨-, hsn, -⟩ := SnakeGame.move_step_ate hwall hany hate.1 hate.2
            rw [hsn]
            exact step_body_good hd tl CellType.SNAKE dir hnodup hadj hnocol _ (Or.inl rfl)
          · obtain ⟨-, hsn, -⟩ := @SnakeGame.move_step_noate R C board hd tl dir (some fc)
              hwall hany (by intro fc2 h2; injection h2 with h3; subst h3; exact hate)
            rw [hsn]
            exact step_body_good hd tl CellType.SNAKE dir hnodup hadj hnocol _ (Or.inr rfl)
  · intro food hd tl dir t s2 hnodup hadj hmv
    by_cases hwall : (advanceHead hd t dir).row < 0 ∨
        (advanceHead hd t dir).row ≥ SnakeTwo.BOARD_ROWS ∨
        (advanceHead hd t dir).col < 0 ∨ (advanceHead hd t dir).col ≥ SnakeTwo.BOARD_COLS
    · rw [SnakeTwo.moveSnake_wall hwall] at hmv
      cases hmv
    · cases hany : (hd :: tl).any (fun seg => seg.row == (advanceHead hd t dir).row &&
        seg.col == (advanceHead hd t dir).col) with
      | true =>
        rw [SnakeTwo.moveSnake_self hwall hany] at hmv
        cases hmv
      | false =>
        have hnocol := nocol_of_any_eq_false hany
        cases food with
        | none =>
          rw [@SnakeTwo.moveSnake_step_noate none hd tl dir t hwall hany
            (by intro fc h; cases h)] at hmv
          obtain rfl := Option.some.inj hmv
          exact step_body_good hd tl t dir hnodup hadj hnocol _ (Or.inr rfl)
        | some fc =>
          by_cases hate : (advanceHead hd t dir).row = fc.row ∧
              (advanceHead hd t dir).col = fc.col
          · rw [SnakeTwo.moveSnake_step_ate hwall hany hate.1 hate.2] at hmv
            obtain rfl := Option.some.inj hmv
            exact step_body_good hd tl t dir hnodup hadj hnocol _ (Or.inl rfl)
          · rw [@SnakeTwo.moveSnake_step_noate (some fc) hd tl dir t hwall hany
              (by intro fc2 h2; injection h2 with h3; subst h3; exact hate)] at hmv
            obtain rfl := Option.some.inj hmv
            exact step_body_good hd tl t dir hnodup hadj hnocol _ (Or.inr rfl)

/-- C3: with an in-bounds non-colliding new head, eating food prepends the
head and keeps the tail (length + 1) and food becomes absent; otherwise the
head is prepended and the last cell dropped (length unchanged) and food is
unchanged. -/
theorem claim_C3 :
    (∀ (R C : Int) (board : SnakeGame.Board) (hd : Coord) (tl : List Coord)
        (dir : Direction) (food : Option Coord),
      0 ≤ (advanceHead hd CellType.SNAKE dir).row →
      (advanceHead hd CellType.SNAKE dir).row < R →
      0 ≤ (advanceHead hd CellType.SNAKE dir).col →
      (advanceHead hd CellType.SNAKE dir).col < C →
      (∀ s ∈ hd :: tl, ¬(s.row = (advanceHead hd CellType.SNAKE dir).row ∧
        s.col = (advanceHead hd CellType.SNAKE dir).col)) →
      ((∀ fc, food = some fc →
          (advanceHead hd CellType.SNAKE dir).row = fc.row →
          (advanceHead hd CellType.SNAKE dir).col = fc.col →
          (SnakeGame.move R C board (hd :: tl) dir food).snake =
            advanceHead hd CellType.SNAKE dir :: hd :: tl ∧
          (SnakeGame.move R C board (hd :: tl) dir food).food = none ∧
          (SnakeGame.move R C board (hd :: tl) dir food).snake.length =
            (hd :: tl).length + 1) ∧
       ((∀ fc, food = some fc → ¬((advanceHead hd CellType.SNAKE dir).row = fc.row ∧
          (advanceHead hd CellType.SNAKE dir).col = fc.col)) →
          (SnakeGame.move R C board (hd :: tl) dir food).snake =
            advanceHead hd CellType.SNAKE dir :: (hd :: tl).dropLast ∧
          (SnakeGame.move R C board (hd :: tl) dir food).food = food ∧
          (SnakeGame.move R C board (hd :: tl) dir food).snake.length =
            (hd :: tl).length))) ∧
    (∀ (food : Option SnakeTwo.Coord) (hd : SnakeTwo.Coord) (tl : List SnakeTwo.Coord)
        (dir : Direction) (t : SnakeTwo.CellType),
      0 ≤ (advanceHead hd t dir).row →
      (advanceHead hd t dir).row < SnakeTwo.BOARD_ROWS →
      0 ≤ (advanceHead hd t dir).col →
      (advanceHead hd t dir).col < SnakeTwo.BOARD_COLS →
      (∀ s ∈ hd :: tl, ¬(s.row = (advanceHead hd t dir).row ∧
        s.col = (advanceHead hd t dir).col)) →
      ((∀ fc, food = some fc →
          (advanceHead hd t dir).row = fc.row →
          (advanceHead hd t dir).col = fc.col →
          SnakeTwo.moveSnake food (hd :: tl) dir t =
            some (advanceHead hd t dir :: hd :: tl)) ∧
       ((∀ fc, food = some fc → ¬((advanceHead hd t dir).row = fc.row ∧
          (advanceHead hd t dir).col = fc.col)) →
          SnakeTwo.moveSnake food (hd :: tl) dir t =
            some (advanceHead hd t dir :: (hd :: tl).dropLast)))) := by
  constructor
  · intro R C board hd tl dir food h1 h2 h3 h4 hnocol
    have hwall : ¬((advanceHead hd CellType.SNAKE dir).row < 0 ∨
        (advanceHead hd CellType.SNAKE dir).row ≥ R ∨
        (advanceHead hd CellType.SNAKE dir).col < 0 ∨
        (advanceHead hd CellType.SNAKE dir).col ≥ C) := by omega
    have hany := any_eq_false_of_nocol hnocol
    constructor
    · intro fc hfc hr hc
      subst hfc
      obtain ⟨-, hsn, hfd⟩ := SnakeGame.move_step_ate hwall hany hr hc
      refine ⟨hsn, hfd, ?_⟩
      rw [hsn]
      simp
    · intro hnot
      obtain ⟨-, hsn, hfd⟩ := SnakeGame.move_step_noate hwall hany hnot
      refine ⟨hsn, hfd, ?_⟩
      rw [hsn]
      simp [List.length_dropLast]
  · intro food hd tl dir t h1 h2 h3 h4 hnocol
    have hwall : ¬((advanceHead hd t dir).row < 0 ∨
        (advanceHead hd t dir).row ≥ SnakeTwo.BOARD_ROWS ∨
        (advanceHead hd t dir).col < 0 ∨
        (advanceHead hd t dir).col ≥ SnakeTwo.BOARD_COLS) := by omega
    have hany := any_eq_false_of_nocol hnocol
    constructor
    · intro fc hfc hr hc
      subst hfc
      exact SnakeTwo.moveSnake_step_ate hwall hany hr hc
    · intro hnot
      exact SnakeTwo.moveSnake_step_noate hwall hany hnot

/-- C4: an out-of-bounds new head is a wall-collision death regardless of
body, food or other state, decided before the self-collision and food
checks; `move` leaves its whole state unchanged, `moveSnake` returns
`null`. -/
theorem claim_C4 :
    (∀ (R C : Int) (board : SnakeGame.Board) (hd : Coord) (tl : List Coord)
        (dir : Direction) (food : Option Coord),
      ((advanceHead hd CellType.SNAKE dir).row < 0 ∨
       (advanceHead hd CellType.SNAKE dir).row ≥ R ∨
       (advanceHead hd CellType.SNAKE dir).col < 0 ∨
       (advanceHead hd CellType.SNAKE dir).col ≥ C) →
      SnakeGame.move R C board (hd :: tl) dir food =
        ⟨SnakeGame.MoveOutcome.hitWall, hd :: tl, food, board⟩) ∧
    (∀ (food : Option SnakeTwo.Coord) (hd : SnakeTwo.Coord) (tl : List SnakeTwo.Coord)
        (dir : Direction) (t : SnakeTwo.CellType),
      ((advanceHead hd t dir).row < 0 ∨ (advanceHead hd t dir).row ≥ SnakeTwo.BOARD_ROWS ∨
       (advanceHead hd t dir).col < 0 ∨ (advanceHead hd t dir).col ≥ SnakeTwo.BOARD_COLS) →
      SnakeTwo.moveSnake food (hd :: tl) dir t = none) :=
  ⟨fun _ _ _ _ _ _ _ h => SnakeGame.move_wall h,
   fun _ _ _ _ _ h => SnakeTwo.moveSnake_wall h⟩

/-- C5: an in-bounds new head landing on any cell of the agent's own
pre-move body (the tail included) is a self-collision death and the body is
not advanced. -/
theorem claim_C5 :
    (∀ (R C : Int) (board : SnakeGame.Board) (hd : Coord) (tl : List Coord)
        (dir : Direction) (food : Option Coord),
      ¬((advanceHead hd CellType.SNAKE dir).row < 0 ∨
        (advanceHead hd CellType.SNAKE dir).row ≥ R ∨
        (advanceHead hd CellType.SNAKE dir).col < 0 ∨
        (advanceHead hd CellType.SNAKE dir).col ≥ C) →
      (∃ s ∈ hd :: tl, s.row = (advanceHead hd CellType.SNAKE dir).row ∧
        s.col = (advanceHead hd CellType.SNAKE dir).col) →
      SnakeGame.move R C board (hd :: tl) dir food =
        ⟨SnakeGame.MoveOutcome.hitSelf, hd :: tl, food, board⟩) ∧
    (∀ (food : Option SnakeTwo.Coord) (hd : SnakeTwo.Coord) (tl : List SnakeTwo.Coord)
        (dir : Direction) (t : SnakeTwo.CellType),
      ¬((advanceHead hd t dir).row < 0 ∨ (advanceHead hd t dir).row ≥ SnakeTwo.BOARD_ROWS ∨
        (advanceHead hd t dir).col < 0 ∨ (advanceHead hd t dir).col ≥ SnakeTwo.BOARD_COLS) →
      (∃ s ∈ hd :: tl, s.row = (advanceHead hd t dir).row ∧
        s.col = (advanceHead hd t dir).col) →
      SnakeTwo.moveSnake food (hd :: tl) dir t = none) := by
  constructor
  · intro R C board hd tl dir food hw hex
    apply SnakeGame.move_self hw
    rw [List.any_eq_true]
    obtain ⟨s, hs, h1, h2⟩ := hex
    exact ⟨s, hs, by simp [h1, h2]⟩
  · intro food hd tl dir t hw hex
    apply SnakeTwo.moveSnake_self hw
    rw [List.any_eq_true]
    obtain ⟨s, hs, h1, h2⟩ := hex
    exact ⟨s, hs, by simp [h1, h2]⟩

/-- C8 (amended): an empty body is handled by a guard clause with a normal
return — the planner answers `null`, `move` returns with no state change,
`moveSnake` returns the body unchanged — not by a precondition failure. -/
theorem claim_C8 :
    (∀ (board : List (List Coord)) (food : Coord),
      findShortestWayToFood board [] food = none) ∧
    (∀ (R C : Int) (board : SnakeGame.Board) (dir : Direction) (food : Option Coord),
      SnakeGame.move R C board [] dir food =
        ⟨SnakeGame.MoveOutcome.emptyNoOp, [], food, board⟩) ∧
    (∀ (food : Option SnakeTwo.Coord) (dir : Direction) (t : SnakeTwo.CellType),
      SnakeTwo.moveSnake food [] dir t = some []) :=
  ⟨fun _ _ => rfl, fun _ _ _ _ _ => rfl, fun _ _ _ => rfl⟩

/-- C8 counterexample: on an empty body every operation returns an ordinary
value — the planner's normal "no path" answer, an unchanged `move` state, an
unchanged `moveSnake` body — so nothing fails fast with a precondition
violation. -/
theorem claim_C8_counterexample :
    findShortestWayToFood [] [] ⟨0, 0, CellType.FOOD⟩ = none ∧
    SnakeGame.move 5 5 [] [] Direction.RIGHT none =
      ⟨SnakeGame.MoveOutcome.emptyNoOp, [], none, []⟩ ∧
    SnakeTwo.moveSnake none [] Direction.RIGHT SnakeTwo.CellType.PLAYER_ONE = some [] :=
  ⟨rfl, rfl, rfl⟩

theorem claim_C2_witness :
    (cellsOf ([⟨2, 2, CellType.SNAKE⟩] : List Coord)).Nodup ∧
    (cellsOf (SnakeGame.move 5 5 [] [⟨2, 2, CellType.SNAKE⟩]
      Direction.RIGHT none).snake).Nodup ∧
    List.Chain' (fun a b => manh a b = 1)
      (cellsOf (SnakeGame.move 5 5 [] [⟨2, 2, CellType.SNAKE⟩]
        Direction.RIGHT none).snake) ∧
    1 ≤ (SnakeGame.move 5 5 [] [⟨2, 2, CellType.SNAKE⟩]
      Direction.RIGHT none).snake.length :=
  ⟨by decide,
   claim_C2.1 5 5 [] ⟨2, 2, CellType.SNAKE⟩ [] Direction.RIGHT none
     (by decide) (List.chain'_singleton _) (by decide) (by decide)⟩

theorem claim_C3_witness :
    (0 : Int) ≤ (advanceHead (⟨2, 2, CellType.SNAKE⟩ : Coord) CellType.SNAKE
      Direction.RIGHT).row ∧
    ((SnakeGame.move 5 5 [] [⟨2, 2, CellType.SNAKE⟩] Direction.RIGHT
        (some ⟨2, 3, CellType.FOOD⟩)).snake =
      advanceHead (⟨2, 2, CellType.SNAKE⟩ : Coord) CellType.SNAKE Direction.RIGHT ::
        [⟨2, 2, CellType.SNAKE⟩] ∧
     (SnakeGame.move 5 5 [] [⟨2, 2, CellType.SNAKE⟩] Direction.RIGHT
        (some ⟨2, 3, CellType.FOOD⟩)).food = none ∧
     (SnakeGame.move 5 5 [] [⟨2, 2, CellType.SNAKE⟩] Direction.RIGHT
        (some ⟨2, 3, CellType.FOOD⟩)).snake.length =
       ([⟨2, 2, CellType.SNAKE⟩] : List Coord).length + 1) :=
  ⟨by decide,
   (claim_C3.1 5 5 [] ⟨2, 2, CellType.SNAKE⟩ [] Direction.RIGHT
      (some ⟨2, 3, CellType.FOOD⟩) (by decide) (by decide) (by decide) (by decide)
      (by decide)).1 ⟨2, 3, CellType.FOOD⟩ rfl (by decide) (by decide)⟩

theorem claim_C4_witness :
    ((advanceHead (⟨0, 0, CellType.SNAKE⟩ : Coord) CellType.SNAKE Direction.UP).row < 0 ∨
     (advanceHead (⟨0, 0, CellType.SNAKE⟩ : Coord) CellType.SNAKE Direction.UP).row ≥ 5 ∨
     (advanceHead (⟨0, 0, CellType.SNAKE⟩ : Coord) CellType.SNAKE Direction.UP).col < 0 ∨
     (advanceHead (⟨0, 0, CellType.SNAKE⟩ : Coord) CellType.SNAKE Direction.UP).col ≥ 5) ∧
    SnakeGame.move 5 5 [] [⟨0, 0, CellType.SNAKE⟩] Direction.UP none =
      ⟨SnakeGame.MoveOutcome.hitWall, [⟨0, 0, CellType.SNAKE⟩], none, []⟩ :=
  ⟨by decide,
   claim_C4.1 5 5 [] ⟨0, 0, CellType.SNAKE⟩ [] Direction.UP none (by decide)⟩

theorem claim_C5_witness :
    (∃ s ∈ ([⟨2, 2, CellType.SNAKE⟩, ⟨2, 3, CellType.SNAKE⟩] : List Coord),
      s.row = (advanceHead (⟨2, 2, CellType.SNAKE⟩ : Coord) CellType.SNAKE
        Direction.RIGHT).row ∧
      s.col = (advanceHead (⟨2, 2, CellType.SNAKE⟩ : Coord) CellType.SNAKE
        Direction.RIGHT).col) ∧
    SnakeGame.move 5 5 [] [⟨2, 2, CellType.SNAKE⟩, ⟨2, 3, CellType.SNAKE⟩]
      Direction.RIGHT none =
      ⟨SnakeGame.MoveOutcome.hitSelf,
        [⟨2, 2, CellType.SNAKE⟩, ⟨2, 3, CellType.SNAKE⟩], none, []⟩ :=
  ⟨by decide,
   claim_C5.1 5 5 [] ⟨2, 2, CellType.SNAKE⟩ [⟨2, 3, CellType.SNAKE⟩]
     Direction.RIGHT none (by decide) (by decide)⟩

/-! ### Food placement -/

theorem nodup_grid_filterMap (R C : Nat) (keep : Nat → Nat → Option (Int × Int))
    (hkeep : ∀ i j x, keep i j = some x → x = (Int.ofNat i, Int.ofNat j)) :
    ((List.range R).flatMap (fun i => (List.range C).filterMap (keep i))).Nodup := by
  rw [List.nodup_flatMap]
  constructor
  · intro i _
    apply List.Nodup.filterMap ?_ (List.nodup_range C)
    intro a a2 b hb hb2
    have e1 := hkeep i a b hb
    have e2 := hkeep i a2 b hb2
    rw [e1] at e2
    have e3 := congrArg Prod.snd e2
    simp only at e3
    exact Int.ofNat.inj e3
  · apply (List.pairwise_lt_range R).imp
    intro i i2 hlt x hx hx2
    obtain ⟨j, -, hj⟩ := List.mem_filterMap.mp hx
    obtain ⟨j2, -, hj2⟩ := List.mem_filterMap.mp hx2
    have e1 := hkeep i j x hj
    have e2 := hkeep i2 j2 x hj2
    rw [e1] at e2
    have e3 := congrArg Prod.fst e2
    simp only at e3
    have e4 := Int.ofNat.inj e3
    omega

theorem mem_emptyCellsOf_snakeGame {R C : Int} {snake : List Coord} {x : Int × Int} :
    x ∈ SnakeGame.emptyCellsOf R C snake ↔
      (0 ≤ x.1 ∧ x.1 < R ∧ 0 ≤ x.2 ∧ x.2 < C ∧
       ∀ s ∈ snake, ¬(s.row = x.1 ∧ s.col = x.2)) := by
  unfold SnakeGame.emptyCellsOf
  rw [List.mem_flatMap]
  constructor
  · rintro ⟨i, hi, hx⟩
    rw [List.mem_range] at hi
    obtain ⟨j, hj, hfx⟩ := List.mem_filterMap.mp hx
    rw [List.mem_range] at hj
    by_cases hocc : snake.any (fun s => s.row == Int.ofNat i && s.col == Int.ofNat j) = true
    · rw [if_pos hocc] at hfx
      cases hfx
    · rw [if_neg hocc] at hfx
      obtain rfl := Option.some.inj hfx
      refine ⟨by simp, by simp; omega, by simp, by simp; omega, ?_⟩
      intro s hs ⟨h1, h2⟩
      apply hocc
      rw [List.any_eq_true]
      exact ⟨s, hs, by simp only [Bool.and_eq_true, beq_iff_eq]; exact ⟨h1, h2⟩⟩
  · rintro ⟨h1, h2, h3, h4, hfree⟩
    have hx1 : Int.ofNat x.1.toNat = x.1 := Int.toNat_of_nonneg h1
    have hx2 : Int.ofNat x.2.toNat = x.2 := Int.toNat_of_nonneg h3
    refine ⟨x.1.toNat, by rw [List.mem_range]; omega, ?_⟩
    rw [List.mem_filterMap]
    refine ⟨x.2.toNat, by rw [List.mem_range]; omega, ?_⟩
    have hocc : snake.any (fun s => s.row == Int.ofNat x.1.toNat &&
        s.col == Int.ofNat x.2.toNat) = false := by
      rw [List.any_eq_false]
      intro s hs
      simp only [Bool.and_eq_true, beq_iff_eq, not_and, hx1, hx2]
      intro ha hb
      exact hfree s hs ⟨ha, hb⟩
    rw [if_neg (by rw [hocc]; simp)]
    exact congrArg some (by rw [Prod.ext_iff]; exact ⟨hx1, hx2⟩)

theorem nodup_emptyCellsOf_snakeGame (R C : Int) (snake : List Coord) :
    (SnakeGame.emptyCellsOf R C snake).Nodup := by
  apply nodup_grid_filterMap R.toNat C.toNat
  intro i j x h
  by_cases hocc : snake.any (fun s => s.row == Int.ofNat i && s.col == Int.ofNat j) = true
  · rw [if_pos hocc] at h
    cases h
  · rw [if_neg hocc] at h
    exact (Option.some.inj h).symm

theorem mem_emptyCellsOf_snakeTwo {snakeOne snakeTwo : List SnakeTwo.Coord}
    {x : Int × Int} :
    x ∈ SnakeTwo.emptyCellsOf snakeOne snakeTwo ↔
      (0 ≤ x.1 ∧ x.1 < SnakeTwo.BOARD_ROWS ∧ 0 ≤ x.2 ∧ x.2 < SnakeTwo.BOARD_COLS ∧
       (∀ s ∈ snakeOne, ¬(s.row = x.1 ∧ s.col = x.2)) ∧
       (∀ s ∈ snakeTwo, ¬(s.row = x.1 ∧ s.col = x.2))) := by
  have hrows : SnakeTwo.BOARD_ROWS = 20 := rfl
  have hcols : SnakeTwo.BOARD_COLS = 20 := rfl
  unfold SnakeTwo.emptyCellsOf
  rw [List.mem_flatMap]
  constructor
  · rintro ⟨i, hi, hx⟩
    rw [List.mem_range] at hi
    obtain ⟨j, hj, hfx⟩ := List.mem_filterMap.mp hx
    rw [List.mem_range] at hj
    by_cases hocc :
        snakeOne.any (fun seg => seg.row == Int.ofNat i && seg.col == Int.ofNat j) = true ∨
        snakeTwo.any (fun seg => seg.row == Int.ofNat i && seg.col == Int.ofNat j) = true
    · rw [if_pos hocc] at hfx
      cases hfx
    · rw [if_neg hocc] at hfx
      obtain rfl := Option.some.inj hfx
      push_neg at hocc
      rw [hrows, hcols]
      simp only [SnakeTwo.BOARD_ROWS, SnakeTwo.BOARD_COLS] at hi hj
      refine ⟨by simp, by simp; omega, by simp, by simp; omega, ?_, ?_⟩
      · intro s hs ⟨h1, h2⟩
        apply hocc.1
        rw [List.any_eq_true]
        exact ⟨s, hs, by simp only [Bool.and_eq_true, beq_iff_eq]; exact ⟨h1, h2⟩⟩
      · intro s hs ⟨h1, h2⟩
        apply hocc.2
        rw [List.any_eq_true]
        exact ⟨s, hs, by simp only [Bool.and_eq_true, beq_iff_eq]; exact ⟨h1, h2⟩⟩
  · rintro ⟨h1, h2, h3, h4, hfree1, hfree2⟩
    rw [hrows] at h2
    rw [hcols] at h4
    have hx1 : Int.ofNat x.1.toNat = x.1 := Int.toNat_of_nonneg h1
    have hx2 : Int.ofNat x.2.toNat = x.2 := Int.toNat_of_nonneg h3
    refine ⟨x.1.toNat, by rw [List.mem_range]; simp [SnakeTwo.BOARD_ROWS]; omega, ?_⟩
    rw [List.mem_filterMap]
    refine ⟨x.2.toNat, by rw [List.mem_range]; simp [SnakeTwo.BOARD_COLS]; omega, ?_⟩
    have hocc1 : snakeOne.any (fun seg => seg.row == Int.ofNat x.1.toNat &&
        seg.col == Int.ofNat x.2.toNat) = false := by
      rw [List.any_eq_false]
      intro s hs
      simp only [Bool.and_eq_true, beq_iff_eq, not_and, hx1, hx2]
      intro ha hb
      exact hfree1 s hs ⟨ha, hb⟩
    have hocc2 : snakeTwo.any (fun seg => seg.row == Int.ofNat x.1.toNat &&
        seg.col == Int.ofNat x.2.toNat) = false := by
      rw [List.any_eq_false]
      intro s hs
      simp only [Bool.and_eq_true, beq_iff_eq, not_and, hx1, hx2]
      intro ha hb
      exact hfree2 s hs ⟨ha, hb⟩
    rw [if_neg (by rw [hocc1, hocc2]; simp)]
    exact congrArg some (by rw [Prod.ext_iff]; exact ⟨hx1, hx2⟩)

theorem nodup_emptyCellsOf_snakeTwo (snakeOne snakeTwo : List SnakeTwo.Coord) :
    (SnakeTwo.emptyCellsOf snakeOne snakeTwo).Nodup := by
  apply nodup_grid_filterMap SnakeTwo.BOARD_ROWS.toNat SnakeTwo.BOARD_COLS.toNat
  intro i j x h
  by_cases hocc :
      snakeOne.any (fun seg => seg.row == Int.ofNat i && seg.col == Int.ofNat j) = true ∨
      snakeTwo.any (fun seg => seg.row == Int.ofNat i && seg.col == Int.ofNat j) = true
  · rw [if_pos hocc] at h
    cases h
  · rw [if_neg hocc] at h
    exact (Option.some.inj h).symm

/-- C7: with the random index made explicit, `placeFood` picks exactly the
`k`-th entry of the duplicate-free row-major list of unoccupied cells — a
uniformly random index therefore yields a uniformly random unoccupied cell —
the placed food never coincides with any agent cell, and no coordinate is
returned precisely when every cell of the board is occupied. -/
theorem claim_C7 :
    (∀ (R C : Int) (board : SnakeGame.Board) (snake : List Coord) (k : Nat),
      (∀ x : Int × Int, x ∈ SnakeGame.emptyCellsOf R C snake ↔
        (0 ≤ x.1 ∧ x.1 < R ∧ 0 ≤ x.2 ∧ x.2 < C ∧
         ∀ s ∈ snake, ¬(s.row = x.1 ∧ s.col = x.2))) ∧
      (SnakeGame.emptyCellsOf R C snake).Nodup ∧
      (∀ c b2, SnakeGame.placeFood R C board snake k = some (c, b2) →
        (SnakeGame.emptyCellsOf R C snake).get? k = some (c.row, c.col) ∧
        c.type = CellType.FOOD ∧
        ∀ s ∈ snake, ¬(s.row = c.row ∧ s.col = c.col)) ∧
      (k < (SnakeGame.emptyCellsOf R C snake).length →
        ∃ c b2, SnakeGame.placeFood R C board snake k = some (c, b2)) ∧
      (k < (SnakeGame.emptyCellsOf R C snake).length ∨
          (SnakeGame.emptyCellsOf R C snake).length = 0 →
        (SnakeGame.placeFood R C board snake k = none ↔
          ∀ x : Int × Int, 0 ≤ x.1 → x.1 < R → 0 ≤ x.2 → x.2 < C →
            ∃ s ∈ snake, s.row = x.1 ∧ s.col = x.2))) ∧
    (∀ (snakeOne snakeTwo : List SnakeTwo.Coord) (k : Nat),
      (∀ x : Int × Int, x ∈ SnakeTwo.emptyCellsOf snakeOne snakeTwo ↔
        (0 ≤ x.1 ∧ x.1 < SnakeTwo.BOARD_ROWS ∧ 0 ≤ x.2 ∧ x.2 < SnakeTwo.BOARD_COLS ∧
         (∀ s ∈ snakeOne, ¬(s.row = x.1 ∧ s.col = x.2)) ∧
         (∀ s ∈ snakeTwo, ¬(s.row = x.1 ∧ s.col = x.2)))) ∧
      (SnakeTwo.emptyCellsOf snakeOne snakeTwo).Nodup ∧
      (∀ c, SnakeTwo.placeFood snakeOne snakeTwo k = some c →
        (SnakeTwo.emptyCellsOf snakeOne snakeTwo).get? k = some (c.row, c.col) ∧
        c.type = SnakeTwo.CellType.FOOD ∧
        (∀ s ∈ snakeOne, ¬(s.row = c.row ∧ s.col = c.col)) ∧
        (∀ s ∈ snakeTwo, ¬(s.row = c.row ∧ s.col = c.col))) ∧
      (k < (SnakeTwo.emptyCellsOf snakeOne snakeTwo).length →
        ∃ c, SnakeTwo.placeFood snakeOne snakeTwo k = some c) ∧
      (k < (SnakeTwo.emptyCellsOf snakeOne snakeTwo).length ∨
          (SnakeTwo.emptyCellsOf snakeOne snakeTwo).length = 0 →
        (SnakeTwo.placeFood snakeOne snakeTwo k = none ↔
          ∀ x : Int × Int, 0 ≤ x.1 → x.1 < SnakeTwo.BOARD_ROWS →
            0 ≤ x.2 → x.2 < SnakeTwo.BOARD_COLS →
            (∃ s ∈ snakeOne, s.row = x.1 ∧ s.col = x.2) ∨
            (∃ s ∈ snakeTwo, s.row = x.1 ∧ s.col = x.2)))) := by
  constructor
  · intro R C board snake k
    refine ⟨fun x => mem_emptyCellsOf_snakeGame, nodup_emptyCellsOf_snakeGame R C snake,
      ?_, ?_, ?_⟩
    · intro c b2 hpf
      unfold SnakeGame.placeFood at hpf
      by_cases hemp : (SnakeGame.emptyCellsOf R C snake).isEmpty = true
      · rw [if_pos hemp] at hpf
        cases hpf
      · rw [if_neg hemp] at hpf
        cases hget : (SnakeGame.emptyCellsOf R C snake).get? k with
        | none => rw [hget] at hpf; cases hpf
        | some rc =>
          rw [hget] at hpf
          simp only [Option.map_some', Option.some.injEq] at hpf
          have hc : c = ⟨rc.1, rc.2, CellType.FOOD⟩ := (congrArg Prod.fst hpf).symm
          subst hc
          have hmem := mem_emptyCellsOf_snakeGame.mp (List.get?_mem hget)
          exact ⟨rfl, rfl, hmem.2.2.2.2⟩
    · intro hk
      unfold SnakeGame.placeFood
      have hemp : ¬(SnakeGame.emptyCellsOf R C snake).isEmpty = true := by
        rw [List.isEmpty_iff]
        intro h
        rw [h] at hk
        simp at hk
      rw [if_neg hemp, List.get?_eq_get hk]
      exact ⟨_, _, rfl⟩
    · intro hk
      constructor
      · intro hnone x hx1 hx2 hx3 hx4
        by_contra hno
        push_neg at hno
        have hxmem : x ∈ SnakeGame.emptyCellsOf R C snake :=
          mem_emptyCellsOf_snakeGame.mpr ⟨hx1, hx2, hx3, hx4,
            fun s hs ⟨ha, hb⟩ => hno s hs ha hb⟩
        unfold SnakeGame.placeFood at hnone
        by_cases hemp : (SnakeGame.emptyCellsOf R C snake).isEmpty = true
        · rw [List.isEmpty_iff] at hemp
          rw [hemp] at hxmem
          cases hxmem
        · rw [if_neg hemp] at hnone
          have hlen : ¬(SnakeGame.emptyCellsOf R C snake).length = 0 := by
            intro h
            apply hemp
            rw [List.isEmpty_iff, List.length_eq_zero] at *
            exact h
          rcases hk with hk | hk
          · rw [List.get?_eq_get hk] at hnone
            cases hnone
          · exact hlen hk
      · intro hall
        have hemp : SnakeGame.emptyCellsOf R C snake = [] := by
          rw [List.eq_nil_iff_forall_not_mem]
          intro x hx
          obtain ⟨h1, h2, h3, h4, hfree⟩ := mem_emptyCellsOf_snakeGame.mp hx
          obtain ⟨s, hs, ha, hb⟩ := hall x h1 h2 h3 h4
          exact hfree s hs ⟨ha, hb⟩
        unfold SnakeGame.placeFood
        rw [if_pos (List.isEmpty_iff.mpr hemp)]
  · intro snakeOne snakeTwo k
    refine ⟨fun x => mem_emptyCellsOf_snakeTwo,
      nodup_emptyCellsOf_snakeTwo snakeOne snakeTwo, ?_, ?_, ?_⟩
    · intro c hpf
      unfold SnakeTwo.placeFood at hpf
      by_cases hemp : (SnakeTwo.emptyCellsOf snakeOne snakeTwo).isEmpty = true
      · rw [if_pos hemp] at hpf
        cases hpf
      · rw [if_neg hemp] at hpf
        cases hget : (SnakeTwo.emptyCellsOf snakeOne snakeTwo).get? k with
        | none => rw [hget] at hpf; cases hpf
        | some rc =>
          rw [hget] at hpf
          simp only [Option.map_some', Option.some.injEq] at hpf
          subst hpf
          have hmem := mem_emptyCellsOf_snakeTwo.mp (List.get?_mem hget)
          exact ⟨rfl, rfl, hmem.2.2.2.2.1, hmem.2.2.2.2.2⟩
    · intro hk
      unfold SnakeTwo.placeFood
      have hemp : ¬(SnakeTwo.emptyCellsOf snakeOne snakeTwo).isEmpty = true := by
        rw [List.isEmpty_iff]
        intro h
        rw [h] at hk
        simp at hk
      rw [if_neg hemp, List.get?_eq_get hk]
      exact ⟨_, rfl⟩
    · intro hk
      constructor
      · intro hnone x hx1 hx2 hx3 hx4
        by_contra hno
        push_neg at hno
        have hxmem : x ∈ SnakeTwo.emptyCellsOf snakeOne snakeTwo := by
          apply mem_emptyCellsOf_snakeTwo.mpr
          refine ⟨hx1, hx2, hx3, hx4, ?_, ?_⟩
          · intro s hs ⟨ha, hb⟩
            exact hno.1 s hs ha hb
          · intro s hs ⟨ha, hb⟩
            exact hno.2 s hs ha hb
        unfold SnakeTwo.placeFood at hnone
        by_cases hemp : (SnakeTwo.emptyCellsOf snakeOne snakeTwo).isEmpty = true
        · rw [List.isEmpty_iff] at hemp
          rw [hemp] at hxmem
          cases hxmem
        · rw [if_neg hemp] at hnone
          have hlen : ¬(SnakeTwo.emptyCellsOf snakeOne snakeTwo).length = 0 := by
            intro h
            apply hemp
            rw [List.isEmpty_iff, List.length_eq_zero] at *
            exact h
          rcases hk with hk | hk
          · rw [List.get?_eq_get hk] at hnone
            cases hnone
          · exact hlen hk
      · intro hall
        have hemp : SnakeTwo.emptyCellsOf snakeOne snakeTwo = [] := by
          rw [List.eq_nil_iff_forall_not_mem]
          intro x hx
          obtain ⟨h1, h2, h3, h4, hfree1, hfree2⟩ := mem_emptyCellsOf_snakeTwo.mp hx
          rcases hall x h1 h2 h3 h4 with ⟨s, hs, ha, hb⟩ | ⟨s, hs, ha, hb⟩
          · exact hfree1 s hs ⟨ha, hb⟩
          · exact hfree2 s hs ⟨ha, hb⟩
        unfold SnakeTwo.placeFood
        rw [if_pos (List.isEmpty_iff.mpr hemp)]

theorem claim_C7_witness :
    0 < (SnakeGame.emptyCellsOf 2 2 [⟨0, 0, CellType.SNAKE⟩]).length ∧
    ∃ c b2, SnakeGame.placeFood 2 2 [] [⟨0, 0, CellType.SNAKE⟩] 0 = some (c, b2) :=
  ⟨by decide, (claim_C7.1 2 2 [] [⟨0, 0, CellType.SNAKE⟩] 0).2.2.2.1 (by decide)⟩

/-! ### Claim theorems for the planner -/

/-- The snapshot of the C9 scenario: 5x5 grid, one single-cell snake at
(2, 2), food at (2, 4), no other obstacles. -/
def c9Snake : List Coord := [⟨2, 2, CellType.SNAKE⟩]

/-- The food record of the C9 scenario. -/
def c9Food : Coord := ⟨2, 4, CellType.FOOD⟩

/-- The C9 planner snapshot, built the way the user-vs-AI page builds it. -/
def c9Board : List (List Coord) :=
  SnakeWithAi.getPathfindingBoard 5 5 c9Snake [] (some c9Food)

/-- C9: on the 5x5 scenario the planner answers RIGHT, and one `move` step
with heading RIGHT puts the head on (2, 3), keeps the length, keeps the food,
and continues normally. -/
theorem claim_C9 :
    findShortestWayToFood c9Board c9Snake c9Food = some Direction.RIGHT ∧
    (SnakeGame.move 5 5 c9Board c9Snake Direction.RIGHT (some c9Food)).outcome =
      SnakeGame.MoveOutcome.continued ∧
    (SnakeGame.move 5 5 c9Board c9Snake Direction.RIGHT (some c9Food)).snake =
      [⟨2, 3, CellType.SNAKE⟩] ∧
    (SnakeGame.move 5 5 c9Board c9Snake Direction.RIGHT (some c9Food)).snake.length =
      c9Snake.length ∧
    (SnakeGame.move 5 5 c9Board c9Snake Direction.RIGHT (some c9Food)).food =
      some c9Food := by
  decide

/-- The all-empty 2x2 snapshot of the C1 counterexample. -/
def c1Board : List (List Coord) := SnakeWithAi.getPathfindingBoard 2 2 [] [] none

/-- The single-cell snake of the C1 counterexample, head on (0, 0). -/
def c1Snake : List Coord := [⟨0, 0, CellType.EMPTY⟩]

/-- The food record of the C1 counterexample: on the head's own cell. -/
def c1Food : Coord := ⟨0, 0, CellType.FOOD⟩

/-- C1 counterexample: on an all-empty 2x2 snapshot with the food on the
head's own cell, a passable 4-connected path of length >= 1 from head to food
exists (around the square), yet `findShortestWayToFood` returns `null` — the
reconstructed path has a single node — instead of a direction onto a
minimum-length path as the claim requires. -/
theorem claim_C1_counterexample :
    (∃ p, IsPathTo c1Board (0, 0) (0, 0) p ∧ 2 ≤ p.length) ∧
    findShortestWayToFood c1Board c1Snake c1Food = none :=
  ⟨⟨[(0, 0), (0, 1), (1, 1), (1, 0), (0, 0)],
    ⟨rfl, rfl, by
      refine List.Chain'.cons ?_ (List.Chain'.cons ?_ (List.Chain'.cons ?_
        (List.Chain'.cons ?_ (List.chain'_singleton _)))) <;> decide⟩,
    by decide⟩, by decide⟩

/-- C1 (amended): when the head is distinct from the food and some passable
path to the food exists, the planner returns a direction whose adjacent cell
is the second cell of a passable path of minimum length — the A*-reconstructed
path — whose length equals the true (BFS) shortest-path length. -/
theorem claim_C1_amended (board : List (List Coord)) (stC : Coord) (tl : List Coord)
    (food : Coord)
    (hne : (stC.row, stC.col) ≠ (food.row, food.col))
    (hreach : Reach board (stC.row, stC.col) (food.row, food.col)) :
    ∃ d p, findShortestWayToFood board (stC :: tl) food = some d ∧
      IsPathTo board (stC.row, stC.col) (food.row, food.col) p ∧
      p.length = distSP board (stC.row, stC.col) (food.row, food.col) + 1 ∧
      (∀ q, IsPathTo board (stC.row, stC.col) (food.row, food.col) q →
        p.length ≤ q.length) ∧
      p.get? 1 = some (dirTarget (stC.row, stC.col) d) := by
  obtain ⟨-, h2, -⟩ := findShortestWayToFood_spec board stC tl food
  obtain ⟨m, hm, hres, hval, p, hp, hplen, hp1⟩ := h2 hne hreach
  refine ⟨m.dir, p, hres, hp, hplen, ?_, ?_⟩
  · intro q hq
    have := distSP_le hq
    omega
  · rw [hp1, dirTarget_moves _ hm]

theorem claim_C1_amended_witness :
    ((c9Snake.headD c1Food).row, (c9Snake.headD c1Food).col) ≠ (c9Food.row, c9Food.col) ∧
    ∃ d p, findShortestWayToFood c9Board c9Snake c9Food = some d ∧
      IsPathTo c9Board ((c9Snake.headD c1Food).row, (c9Snake.headD c1Food).col)
        (c9Food.row, c9Food.col) p ∧
      p.length = distSP c9Board ((c9Snake.headD c1Food).row, (c9Snake.headD c1Food).col)
        (c9Food.row, c9Food.col) + 1 ∧
      (∀ q, IsPathTo c9Board ((c9Snake.headD c1Food).row, (c9Snake.headD c1Food).col)
        (c9Food.row, c9Food.col) q → p.length ≤ q.length) ∧
      p.get? 1 = some (dirTarget ((c9Snake.headD c1Food).row, (c9Snake.headD c1Food).col) d) :=
  ⟨by decide,
   claim_C1_amended c9Board ⟨2, 2, CellType.SNAKE⟩ [] c9Food (by decide)
     ⟨[(2, 2), (2, 3), (2, 4)],
      ⟨rfl, rfl, by
        refine List.Chain'.cons ?_ (List.Chain'.cons ?_ (List.chain'_singleton _)) <;>
          decide⟩⟩⟩

/-- C6: the planner returns `null` exactly when the head already sits on the
food or no 4-connected passable path from head to food exists; both are
ordinary return values of the same total function. -/
theorem claim_C6 (board : List (List Coord)) (stC : Coord) (tl : List Coord)
    (food : Coord) :
    findShortestWayToFood board (stC :: tl) food = none ↔
      ((stC.row, stC.col) = (food.row, food.col) ∨
       ¬ Reach board (stC.row, stC.col) (food.row, food.col)) := by
  obtain ⟨h1, h2, h3⟩ := findShortestWayToFood_spec board stC tl food
  constructor
  · intro hn
    by_cases hst : (stC.row, stC.col) = (food.row, food.col)
    · exact Or.inl hst
    · right
      intro hr
      obtain ⟨m, hm, hres, -⟩ := h2 hst hr
      rw [hres] at hn
      cases hn
  · rintro (h | h)
    · exact h1 h
    · exact h3 h

/-- C10: whenever the planner returns a direction, the cell adjacent to the
head in that direction is inside the board and tagged passable (`EMPTY` or
`FOOD`) in the snapshot, even though the head's own cell was never checked. -/
theorem claim_C10 (board : List (List Coord)) (stC : Coord) (tl : List Coord)
    (food : Coord) (d : Direction)
    (h : findShortestWayToFood board (stC :: tl) food = some d) :
    0 ≤ (dirTarget (stC.row, stC.col) d).1 ∧
    (dirTarget (stC.row, stC.col) d).1 < boardRows board ∧
    0 ≤ (dirTarget (stC.row, stC.col) d).2 ∧
    (dirTarget (stC.row, stC.col) d).2 < boardCols board ∧
    ((cellAt board (dirTarget (stC.row, stC.col) d).1
        (dirTarget (stC.row, stC.col) d).2).type = CellType.EMPTY ∨
     (cellAt board (dirTarget (stC.row, stC.col) d).1
        (dirTarget (stC.row, stC.col) d).2).type = CellType.FOOD) := by
  obtain ⟨h1, h2, h3⟩ := findShortestWayToFood_spec board stC tl food
  by_cases hst : (stC.row, stC.col) = (food.row, food.col)
  · rw [h1 hst] at h
    cases h
  · by_cases hr : Reach board (stC.row, stC.col) (food.row, food.col)
    · obtain ⟨m, hm, hres, hval, -⟩ := h2 hst hr
      have hd : d = m.dir := by
        rw [h] at hres
        exact Option.some.inj hres
      subst hd
      rw [dirTarget_moves _ hm]
      exact (isValid_spec board _ _).mp hval
    · rw [h3 hr] at h
      cases h

theorem claim_C10_witness :
    findShortestWayToFood c9Board c9Snake c9Food = some Direction.RIGHT ∧
    (0 ≤ (dirTarget ((2 : Int), (2 : Int)) Direction.RIGHT).1 ∧
     (dirTarget ((2 : Int), (2 : Int)) Direction.RIGHT).1 < boardRows c9Board ∧
     0 ≤ (dirTarget ((2 : Int), (2 : Int)) Direction.RIGHT).2 ∧
     (dirTarget ((2 : Int), (2 : Int)) Direction.RIGHT).2 < boardCols c9Board ∧
     ((cellAt c9Board (dirTarget ((2 : Int), (2 : Int)) Direction.RIGHT).1
         (dirTarget ((2 : Int), (2 : Int)) Direction.RIGHT).2).type = CellType.EMPTY ∨
      (cellAt c9Board (dirTarget ((2 : Int), (2 : Int)) Direction.RIGHT).1
         (dirTarget ((2 : Int), (2 : Int)) Direction.RIGHT).2).type = CellType.FOOD)) :=
  ⟨by decide,
   claim_C10 c9Board ⟨2, 2, CellType.SNAKE⟩ [] c9Food Direction.RIGHT (by decide)⟩
